import Mathlib

/-!
Verification of the secret-reconciliation core of yet-another-secrets-operator.

The Go source is shallowly embedded: Go `map`s become association lists
(`List (String × _)`) built with an overwrite-insert, Go `[]byte` values become
`String` (the code only ever converts between the two losslessly), fallible Go
functions return `Except String _`, and the controller's effects on the two
stores are recorded as an explicit action trace.  Functions keep the source
names from `controllers/asecret_controller.go` and `controllers/utils.go`.
-/
set_option autoImplicit false

namespace Yaso

/-! ## Association-list maps (the embedding of Go maps) -/
abbrev SMap := List (String × String)

/-- First-of-two option choice. -/
def ofirst {α : Type} (o₁ o₂ : Option α) : Option α :=
  match o₁ with
  | some v => some v
  | none => o₂

/-- Lookup of the first binding of a key (Go map read). -/
def mfind {α : Type} (m : List (String × α)) (k : String) : Option α :=
  match m with
  | [] => none
  | (k', v) :: rest => if k' = k then some v else mfind rest k

/-- Overwrite-insert (Go `m[k] = v`): replaces an existing binding, else appends. -/
def minsert {α : Type} (m : List (String × α)) (k : String) (v : α) :
    List (String × α) :=
  match m with
  | [] => [(k, v)]
  | (k', v') :: rest =>
      if k' = k then (k, v) :: rest else (k', v') :: minsert rest k v

/-- Fold every binding of `xs` into `base` by overwrite-insert
(the Go `for k, v := range xs { base[k] = v }` loop). -/
def insertAll {α : Type} (base : List (String × α)) (xs : List (String × α)) :
    List (String × α) :=
  xs.foldl (fun acc kv => minsert acc kv.1 kv.2) base

/-- Key list of an association map. -/
def mkeys {α : Type} (m : List (String × α)) : List String :=
  m.map Prod.fst

/-- Lookup of the **last** binding of a key (what a sequence of Go map writes
leaves behind when the same key is written several times). -/
def lastFind {α : Type} (xs : List (String × α)) (k : String) : Option α :=
  mfind xs.reverse k

/-! ## Data model (api/v1alpha1/asecret_types.go, agenerator_types.go) -/
/-- `GeneratorReference` from asecret_types.go. -/
structure GeneratorReference where
  name : String
deriving Repr, DecidableEq

/-- `DataSource` from asecret_types.go: a per-key resolution rule. -/
structure DataSource where
  value : String := ""
  generatorRef : Option GeneratorReference := none
  onlyImportRemote : Option Bool := none
deriving Repr, DecidableEq

/-- `ASecretSpec` from asecret_types.go, restricted to the fields the
reconciliation core reads. `data` is a Go map embedded as an association list
(a Go map always has distinct keys; theorems that need it take a `Nodup`
hypothesis). -/
structure ASecretSpec where
  targetSecretName : String := ""
  awsSecretPath : String := ""
  kmsKeyId : String := ""
  data : List (String × DataSource) := []
  onlyImportRemote : Option Bool := none
  valueType : String := ""
deriving Repr, DecidableEq

/-- `AGeneratorSpec` from agenerator_types.go. -/
structure AGeneratorSpec where
  length : Int := 16
  includeUppercase : Bool := true
  includeLowercase : Bool := true
  includeNumbers : Bool := true
  includeSpecialChars : Bool := true
  specialChars : String := "!@#$%^&*()-_=+[]\x7b\x7d|;:,.<>?/"
deriving Repr, DecidableEq

/-! ## Merge engine (controllers/asecret_controller.go) -/
/-- `prepareOnlyImportRemoteData`: data preparation when `onlyImportRemote`
is true at spec level — import the AWS data if it exists, else the empty map. -/
def prepareOnlyImportRemoteData (awsSecretData : SMap) (awsSecretExists : Bool) :
    SMap :=
  let secretData : SMap := []
  if awsSecretExists then insertAll secretData awsSecretData else secretData

/-- `pruneUnmanagedKeys`: remove every key of `secretData` that is not a key of
`aSecret.Spec.Data` (collect `keysToDelete`, then delete them). -/
def pruneUnmanagedKeys (aSecret : ASecretSpec) (secretData : SMap) : SMap :=
  let managedKeys := mkeys aSecret.data
  secretData.filter (fun kv => managedKeys.contains kv.1)

/-- `prepareNormalMergeData`: start from the Kubernetes secret data when it
exists, overlay the AWS data when it exists (AWS takes precedence), then prune
if the global `RemoveRemoteKeys` toggle is on. -/
def prepareNormalMergeData (aSecret : ASecretSpec) (existingSecretData : SMap)
    (awsSecretData : SMap) (awsSecretExists kubeSecretExists : Bool)
    (removeRemoteKeys : Bool) : SMap :=
  let secretData : SMap := []
  let secretData :=
    if kubeSecretExists then insertAll secretData existingSecretData
    else secretData
  let secretData :=
    if awsSecretExists then insertAll secretData awsSecretData else secretData
  if removeRemoteKeys then pruneUnmanagedKeys aSecret secretData else secretData

/-- `prepareSecretData`: dispatch on the spec-level `onlyImportRemote` flag
(`aSecret.Spec.OnlyImportRemote != nil && *aSecret.Spec.OnlyImportRemote`). -/
def prepareSecretData (aSecret : ASecretSpec) (existingSecretData : SMap)
    (awsSecretData : SMap) (awsSecretExists kubeSecretExists : Bool)
    (removeRemoteKeys : Bool) : SMap :=
  if aSecret.onlyImportRemote = some true then
    prepareOnlyImportRemoteData awsSecretData awsSecretExists
  else
    prepareNormalMergeData aSecret existingSecretData awsSecretData
      awsSecretExists kubeSecretExists removeRemoteKeys

/-! ## Change detector (controllers/asecret_controller.go) -/
/-- `shouldSkipKeyForAwsUpdate`: a key is skipped for AWS updates exactly when
the spec declares it with `onlyImportRemote: true`. -/
def shouldSkipKeyForAwsUpdate (aSecret : ASecretSpec) (key : String) : Bool :=
  match mfind aSecret.data key with
  | some dataSource => dataSource.onlyImportRemote = some true
  | none => false

/-- `filterAwsUpdateData`: drop the keys that should be skipped for AWS. -/
def filterAwsUpdateData (aSecret : ASecretSpec) (secretData : SMap) : SMap :=
  secretData.filter (fun kv => ¬ shouldSkipKeyForAwsUpdate aSecret kv.1)

/-- `calculateKeyDifferences`: (some key of `secretData` is missing from AWS,
some key of AWS is missing from `secretData`). -/
def calculateKeyDifferences (secretData : SMap) (awsSecretData : SMap) :
    Bool × Bool :=
  let hasMissingKeys := secretData.any (fun kv => (mfind awsSecretData kv.1).isNone)
  let hasExtraKeys := awsSecretData.any (fun kv => (mfind secretData kv.1).isNone)
  (hasMissingKeys, hasExtraKeys)

/-- `shouldUpdateAwsSecret`: always update when the AWS secret does not exist;
otherwise compare key sets after filtering out `onlyImportRemote` keys. -/
def shouldUpdateAwsSecret (aSecret : ASecretSpec) (secretData : SMap)
    (awsSecretData : SMap) (awsSecretExists : Bool) : Bool :=
  if ¬ awsSecretExists then true
  else
    let awsUpdateData := filterAwsUpdateData aSecret secretData
    let d := calculateKeyDifferences awsUpdateData awsSecretData
    d.1 || d.2

/-! ## Generator (controllers/utils.go, pkg/utils) -/
/-- `validateGeneratorSpec` from controllers/utils.go (tested as
`utils.ValidateGeneratorSpec`): at least one character class must be enabled
and the length must be positive. -/
def ValidateGeneratorSpec (spec : AGeneratorSpec) : Except String Unit :=
  if ¬ spec.includeUppercase ∧ ¬ spec.includeLowercase ∧ ¬ spec.includeNumbers ∧
      ¬ spec.includeSpecialChars then
    Except.error
      "at least one character type (uppercase, lowercase, numbers, or special chars) must be enabled"
  else if spec.length ≤ 0 then
    Except.error "length must be greater than 0"
  else
    Except.ok ()

/-- The character set assembled by `generateRandomString` in
controllers/utils.go from the enabled character classes. -/
def generatorChars (spec : AGeneratorSpec) : String :=
  (if spec.includeUppercase then "ABCDEFGHIJKLMNOPQRSTUVWXYZ" else "") ++
  (if spec.includeLowercase then "abcdefghijklmnopqrstuvwxyz" else "") ++
  (if spec.includeNumbers then "0123456789" else "") ++
  (if spec.includeSpecialChars then spec.specialChars else "")

/-- Modelled from the spec: `pkg/utils.GenerateRandomString`, the generator
resolver invoked by `generateValue`, is not under src (src holds only its test
`TestValidateGeneratorSpec` and its callers).  Per the spec it "produces a
random string honoring character-class and length rules" and generator-spec
validation (no character class enabled, non-positive length) is a fatal,
reported error.  Randomness is threaded in as the oracle `draws`, one
uniformly drawn index per output position (`crypto/rand.Int`). -/
def GenerateRandomString (draws : Nat → Nat) (spec : AGeneratorSpec) :
    Except String String :=
  match ValidateGeneratorSpec spec with
  | Except.error e => Except.error e
  | Except.ok _ =>
      let chars := generatorChars spec
      if chars.length = 0 then
        Except.error "no character set defined for password generation"
      else
        Except.ok (String.mk ((List.range spec.length.toNat).map
          (fun i => chars.data.getD (draws i % chars.length) 'A')))

/-- `generateValue`: fetch the named `AGenerator` object (an unresolvable name
is an error) and run the generator on its spec. -/
def generateValue (resolveGenerator : String → Option AGeneratorSpec)
    (draws : Nat → Nat) (generatorName : String) : Except String String :=
  match resolveGenerator generatorName with
  | none => Except.error ("failed to get generator " ++ generatorName)
  | some gspec => GenerateRandomString draws gspec

/-- `processASecretData`: walk the declared data entries; skip
`onlyImportRemote` keys and keys already present; otherwise set the static
value, or resolve the generator reference (propagating its error), or do
nothing when neither is declared. -/
def processASecretData (resolveGenerator : String → Option AGeneratorSpec)
    (draws : Nat → Nat) :
    List (String × DataSource) → SMap → Except String SMap
  | [], secretData => Except.ok secretData
  | (key, dataSource) :: rest, secretData =>
      if dataSource.onlyImportRemote = some true then
        processASecretData resolveGenerator draws rest secretData
      else if (mfind secretData key).isSome then
        processASecretData resolveGenerator draws rest secretData
      else if dataSource.value ≠ "" then
        processASecretData resolveGenerator draws rest
          (minsert secretData key dataSource.value)
      else
        match dataSource.generatorRef with
        | some generatorRef =>
            match generateValue resolveGenerator draws generatorRef.name with
            | Except.error e => Except.error e
            | Except.ok generatedValue =>
                processASecretData resolveGenerator draws rest
                  (minsert secretData key generatedValue)
        | none => processASecretData resolveGenerator draws rest secretData

/-! ## Reconciliation driver (controllers/asecret_controller.go, `Reconcile`) -/
/-- One store write issued by a reconciliation cycle. -/
inductive Action where
  | createClusterSecret (data : SMap)
  | updateClusterSecret (data : SMap)
  | writeVault (data : SMap)
deriving Repr, DecidableEq

/-- The post-fetch part of `Reconcile`: prepare the secret data, process the
declared entries unless `onlyImportRemote` (an error aborts the cycle before
any write), then unconditionally create or update the Kubernetes secret, then
write the AWS secret only when change detection demands it and
`onlyImportRemote` is off.  Returns the computed data and the store writes
issued, in order. -/
def reconcileCompute (resolveGenerator : String → Option AGeneratorSpec)
    (draws : Nat → Nat) (aSecret : ASecretSpec) (existingSecretData : SMap)
    (kubeSecretExists : Bool) (awsSecretData : SMap) (awsSecretExists : Bool)
    (removeRemoteKeys : Bool) : Except String (SMap × List Action) :=
  let secretData := prepareSecretData aSecret existingSecretData awsSecretData
    awsSecretExists kubeSecretExists removeRemoteKeys
  let onlyImportRemote := aSecret.onlyImportRemote = some true
  match
    if ¬ onlyImportRemote then
      processASecretData resolveGenerator draws aSecret.data secretData
    else Except.ok secretData
  with
  | Except.error e => Except.error e
  | Except.ok secretData =>
      let clusterAction :=
        if ¬ kubeSecretExists then Action.createClusterSecret secretData
        else Action.updateClusterSecret secretData
      let vaultActions :=
        if ¬ onlyImportRemote ∧
            shouldUpdateAwsSecret aSecret secretData awsSecretData
              awsSecretExists then
          [Action.writeVault secretData]
        else []
      Except.ok (secretData, clusterAction :: vaultActions)

/-! ## Claim C6 -/
/-- One store call issued by the `valueType: binary` write phase. -/
inductive BinaryPhaseOp where
  | clusterCreate (data : SMap)
  | clusterUpdate (data : SMap)
  | vaultDescribe (path : String)
  | vaultCreate (path : String) (payload : String)
  | vaultPut (path : String) (payload : String)
deriving Repr, DecidableEq

/-- Modelled from the spec: the `valueType: binary` branch of the write phase
is not under src — src holds only its unit tests
(`TestCreateOrUpdateAwsSecretBinary`, `TestGetAwsSecretBinary`) and the README
section "Storing Binary Data (Certificates, Keys, etc.)".  Per the spec
(Merge step 6, §4.2 `binary`, Scenario D) and those tests: a binary
TargetValueSet with more than one key is a hard validation error raised
before any store call; with exactly one key the single value's raw bytes are
written (describe, then create when the vault secret is absent, else update);
with no key no vault call is made.  The Kubernetes secret write of the phase
is recorded first, as in the driver. -/
def binaryWritePhase (aSecret : ASecretSpec) (data : SMap)
    (kubeSecretExists vaultExists : Bool) : Except String (List BinaryPhaseOp) :=
  if data.length > 1 then
    Except.error "binary secrets can only contain one key-value pair"
  else
    let clusterOp :=
      if ¬ kubeSecretExists then BinaryPhaseOp.clusterCreate data
      else BinaryPhaseOp.clusterUpdate data
    let vaultOps :=
      match data with
      | [] => []
      | (_, v) :: _ =>
          BinaryPhaseOp.vaultDescribe aSecret.awsSecretPath ::
            (if vaultExists then [BinaryPhaseOp.vaultPut aSecret.awsSecretPath v]
             else [BinaryPhaseOp.vaultCreate aSecret.awsSecretPath v])
    Except.ok (clusterOp :: vaultOps)

/-! ## A model of Go `encoding/json` for claim C7

`prepareAwsSecretString` and `parseAwsSecretValue` delegate to Go's
`encoding/json`.  The codec is modelled over an explicit JSON value type:
`json.Marshal` is a serializer (map keys sorted, Go's default HTML escaping),
`json.Unmarshal` a fuel-bounded but total parser.  Two deliberate
idealizations, both away from the behaviors the claims touch: numbers are
exact decimals (`mant * 10 ^ exp`) rather than IEEE float64, and their
canonical rendering never switches to exponent notation. -/
/-- A JSON value.  A number is `mant * 10 ^ exp`. -/
inductive JVal where
  | null
  | bool (b : Bool)
  | num (mant : Int) (exp : Int)
  | str (s : String)
  | arr (elements : List JVal)
  | obj (fields : List (String × JVal))

/-- A number is normalized when a zero mantissa forces a zero exponent and a
nonzero mantissa carries no factor of ten (parsers only produce these). -/
def numWF (mant exp : Int) : Bool :=
  decide ((mant = 0 → exp = 0) ∧ (mant ≠ 0 → mant.natAbs % 10 ≠ 0))

mutual

/-- All numbers in the value are normalized. -/
def jvalWF : JVal → Bool
  | .null => true
  | .bool _ => true
  | .num m e => numWF m e
  | .str _ => true
  | .arr xs => jelemsWF xs
  | .obj fs => jfieldsWF fs

def jelemsWF : List JVal → Bool
  | [] => true
  | x :: xs => jvalWF x && jelemsWF xs

def jfieldsWF : List (String × JVal) → Bool
  | [] => true
  | kv :: fs => jvalWF kv.2 && jfieldsWF fs

end

/-! ### Serializer (`json.Marshal`) -/
/-- The decimal digit character for `d < 10`. -/
def digitCh (d : Nat) : Char := Char.ofNat (48 + d)

/-- Lowercase hex digit character for `n < 16`. -/
def hexDigitCh (n : Nat) : Char :=
  if n < 10 then digitCh n else Char.ofNat (87 + n)

/-- Big-endian decimal digit characters of a positive natural. -/
def natDigitChars (n : Nat) : List Char :=
  ((Nat.digits 10 n).map digitCh).reverse

/-- The digits of `n * 10 ^ exp` in plain decimal notation, `n` nonzero. -/
def bodyNum (n : Nat) (exp : Int) : List Char :=
  let ds := natDigitChars n
  if 0 ≤ exp then ds ++ List.replicate exp.toNat '0'
  else
    let f := exp.natAbs
    if f < ds.length then
      ds.take (ds.length - f) ++ '.' :: ds.drop (ds.length - f)
    else
      '0' :: '.' :: List.replicate (f - ds.length) '0' ++ ds

/-- Canonical rendering of the exact decimal `mant * 10 ^ exp` (plain decimal
notation; Go would switch to exponent notation for extreme magnitudes). -/
def serializeNum (mant exp : Int) : List Char :=
  if mant = 0 then ['0']
  else (if mant < 0 then ['-'] else []) ++ bodyNum mant.natAbs exp

/-- Go's string escaping (`encodeState.string` with default HTML escaping):
quote, backslash, `\n` `\r` `\t`, other control characters as `\u00XX`,
`<` `>` `&` as `<` `>` `&`, U+2028/U+2029 as ` `/` `. -/
def escapeChar (c : Char) : List Char :=
  if c = '"' then ['\\', '"']
  else if c = '\\' then ['\\', '\\']
  else if c = '\n' then ['\\', 'n']
  else if c = '\r' then ['\\', 'r']
  else if c = '\t' then ['\\', 't']
  else if c.toNat < 32 ∨ c = '<' ∨ c = '>' ∨ c = '&' then
    ['\\', 'u', '0', '0', hexDigitCh (c.toNat / 16), hexDigitCh (c.toNat % 16)]
  else if c.toNat = 0x2028 ∨ c.toNat = 0x2029 then
    ['\\', 'u', '2', '0', '2', hexDigitCh (c.toNat % 16)]
  else [c]

/-- A JSON string literal, quotes included. -/
def serializeStr (s : String) : List Char :=
  '"' :: s.data.foldr (fun c acc => escapeChar c ++ acc) ['"']

mutual

/-- `json.Marshal` of a JSON value (compact form, no added whitespace). -/
def serializeJVal : JVal → List Char
  | JVal.null => ['n', 'u', 'l', 'l']
  | JVal.bool true => ['t', 'r', 'u', 'e']
  | JVal.bool false => ['f', 'a', 'l', 's', 'e']
  | JVal.num m e => serializeNum m e
  | JVal.str s => serializeStr s
  | JVal.arr xs => '[' :: serializeElems xs ++ [']']
  | JVal.obj fs => '\x7b' :: serializeFields fs ++ ['\x7d']

def serializeElems : List JVal → List Char
  | [] => []
  | [x] => serializeJVal x
  | x :: xs => serializeJVal x ++ ',' :: serializeElems xs

def serializeFields : List (String × JVal) → List Char
  | [] => []
  | [kv] => serializeStr kv.1 ++ ':' :: serializeJVal kv.2
  | kv :: fs => serializeStr kv.1 ++ ':' :: serializeJVal kv.2 ++
      ',' :: serializeFields fs

end

/-! ### Parser (`json.Unmarshal`) -/
def isWsCh (c : Char) : Bool := c = ' ' ∨ c = '\t' ∨ c = '\n' ∨ c = '\r'

def skipWs : List Char → List Char
  | [] => []
  | c :: rest => if isWsCh c then skipWs rest else c :: rest

def isDigitCh (c : Char) : Bool := 48 ≤ c.toNat ∧ c.toNat ≤ 57

def digitVal (c : Char) : Nat := c.toNat - 48

/-- Longest digit run at the head of the input. -/
def takeDigits : List Char → List Char × List Char
  | [] => ([], [])
  | c :: rest =>
      if isDigitCh c then
        let p := takeDigits rest
        (c :: p.1, p.2)
      else ([], c :: rest)

/-- Value of a big-endian digit-character run. -/
def digitsVal (ds : List Char) : Nat :=
  ds.foldl (fun a c => 10 * a + digitVal c) 0

/-- Strip factors of ten off a nonzero natural mantissa into the exponent. -/
def stripTensN (n : Nat) (e : Int) : Nat × Int :=
  if h : n ≠ 0 ∧ n % 10 = 0 then stripTensN (n / 10) (e + 1) else (n, e)
termination_by n
decreasing_by exact Nat.div_lt_self (Nat.pos_of_ne_zero h.1) (by omega)

/-- Normalized exact decimal from sign, natural mantissa and exponent. -/
def normNum (neg : Bool) (n : Nat) (e : Int) : Int × Int :=
  if n = 0 then (0, 0)
  else
    let p := stripTensN n e
    (if neg then -(p.1 : Int) else (p.1 : Int), p.2)

/-- The exponent suffix: `e`/`E`, optional sign, digits; `some (0, cs)` when
absent, `none` when malformed. -/
def parseExpSuffix (cs : List Char) : Option (Int × List Char) :=
  match cs with
  | c :: r =>
      if c = 'e' ∨ c = 'E' then
        let es : Bool × List Char :=
          match r with
          | c2 :: r2 =>
              if c2 = '+' then (false, r2)
              else if c2 = '-' then (true, r2)
              else (false, r)
          | [] => (false, r)
        let ep := takeDigits es.2
        if ep.1 = [] then none
        else some
          ((if es.1 then -(digitsVal ep.1 : Int) else (digitsVal ep.1 : Int)),
            ep.2)
      else some (0, cs)
  | [] => some (0, cs)

/-- The fraction suffix: `.` and digits; `some ([], cs)` when absent, `none`
when malformed. -/
def parseFracSuffix (cs : List Char) : Option (List Char × List Char) :=
  match cs with
  | c :: r =>
      if c = '.' then
        let fp := takeDigits r
        if fp.1 = [] then none else some (fp.1, fp.2)
      else some ([], cs)
  | [] => some ([], cs)

/-- The digits-fraction-exponent walk of a JSON number after the sign. -/
def parseNumberCore (neg : Bool) (cs : List Char) :
    Option ((Int × Int) × List Char) :=
  match cs with
  | [] => none
  | c :: _ =>
      if ¬ isDigitCh c then none
      else
        let ip := takeDigits cs
        if 1 < ip.1.length ∧ ip.1.head? = some '0' then none
        else
          match parseFracSuffix ip.2 with
          | none => none
          | some (fds, cs2) =>
              match parseExpSuffix cs2 with
              | none => none
              | some (e, cs3) =>
                  some (normNum neg (digitsVal (ip.1 ++ fds))
                    (e - fds.length), cs3)

/-- Parse a JSON number (RFC 8259 grammar) into a normalized exact decimal. -/
def parseNumber (cs : List Char) : Option ((Int × Int) × List Char) :=
  match cs with
  | c :: r => if c = '-' then parseNumberCore true r else parseNumberCore false cs
  | [] => parseNumberCore false cs

/-- Hex digit value, either case. -/
def hexVal (c : Char) : Option Nat :=
  if 48 ≤ c.toNat ∧ c.toNat ≤ 57 then some (c.toNat - 48)
  else if 97 ≤ c.toNat ∧ c.toNat ≤ 102 then some (c.toNat - 87)
  else if 65 ≤ c.toNat ∧ c.toNat ≤ 70 then some (c.toNat - 55)
  else none

def parseHex4 : List Char → Option (Nat × List Char)
  | a :: b :: c :: d :: rest =>
      match hexVal a, hexVal b, hexVal c, hexVal d with
      | some va, some vb, some vc, some vd =>
          some (((va * 16 + vb) * 16 + vc) * 16 + vd, rest)
      | _, _, _, _ => none
  | _ => none

/-- U+FFFD, Go's stand-in for invalid surrogate escapes. -/
def replacementChar : Char := Char.ofNat 0xFFFD

def consOut (c : Char) :
    Option (List Char × List Char) → Option (List Char × List Char)
  | some (s, r) => some (c :: s, r)
  | none => none

/-- Parse a string body after the opening quote, unescaping, up to and
including the closing quote; returns the decoded characters and the rest. -/
def parseStringBody : Nat → List Char → Option (List Char × List Char)
  | 0, _ => none
  | _+1, [] => none
  | fuel+1, c :: rest =>
      if c = '"' then some ([], rest)
      else if c = '\\' then
        match rest with
        | [] => none
        | e :: rest2 =>
            if e = '"' then consOut '"' (parseStringBody fuel rest2)
            else if e = '\\' then consOut '\\' (parseStringBody fuel rest2)
            else if e = '/' then consOut '/' (parseStringBody fuel rest2)
            else if e = 'b' then consOut (Char.ofNat 8) (parseStringBody fuel rest2)
            else if e = 'f' then consOut (Char.ofNat 12) (parseStringBody fuel rest2)
            else if e = 'n' then consOut '\n' (parseStringBody fuel rest2)
            else if e = 'r' then consOut '\r' (parseStringBody fuel rest2)
            else if e = 't' then consOut '\t' (parseStringBody fuel rest2)
            else if e = 'u' then
              match parseHex4 rest2 with
              | none => none
              | some (n, rest3) =>
                  if 0xD800 ≤ n ∧ n < 0xDC00 then
                    match rest3 with
                    | '\\' :: 'u' :: rest4 =>
                        match parseHex4 rest4 with
                        | some (n2, rest5) =>
                            if 0xDC00 ≤ n2 ∧ n2 < 0xE000 then
                              consOut
                                (Char.ofNat (0x10000 + (n - 0xD800) * 0x400 +
                                  (n2 - 0xDC00)))
                                (parseStringBody fuel rest5)
                            else consOut replacementChar
                              (parseStringBody fuel rest3)
                        | none => consOut replacementChar
                            (parseStringBody fuel rest3)
                    | _ => consOut replacementChar (parseStringBody fuel rest3)
                  else if 0xDC00 ≤ n ∧ n < 0xE000 then
                    consOut replacementChar (parseStringBody fuel rest3)
                  else consOut (Char.ofNat n) (parseStringBody fuel rest3)
            else none
      else if c.toNat < 32 then none
      else consOut c (parseStringBody fuel rest)

mutual

/-- Parse one JSON value (leading whitespace allowed). -/
def parseValue : Nat → List Char → Option (JVal × List Char)
  | 0, _ => none
  | fuel+1, cs =>
      match skipWs cs with
      | [] => none
      | c :: rest =>
          if c = 'n' then
            match rest with
            | 'u' :: 'l' :: 'l' :: r => some (JVal.null, r)
            | _ => none
          else if c = 't' then
            match rest with
            | 'r' :: 'u' :: 'e' :: r => some (JVal.bool true, r)
            | _ => none
          else if c = 'f' then
            match rest with
            | 'a' :: 'l' :: 's' :: 'e' :: r => some (JVal.bool false, r)
            | _ => none
          else if c = '"' then
            match parseStringBody rest.length rest with
            | some (s, r) => some (JVal.str (String.mk s), r)
            | none => none
          else if c = '[' then
            match skipWs rest with
            | ']' :: r => some (JVal.arr [], r)
            | rest2 =>
                match parseElems fuel rest2 with
                | some (vs, r) => some (JVal.arr vs, r)
                | none => none
          else if c = '\x7b' then
            match skipWs rest with
            | '\x7d' :: r => some (JVal.obj [], r)
            | rest2 =>
                match parseFields fuel rest2 with
                | some (fs, r) => some (JVal.obj fs, r)
                | none => none
          else if c = '-' ∨ isDigitCh c then
            match parseNumber (c :: rest) with
            | some ((m, e), r) => some (JVal.num m e, r)
            | none => none
          else none

/-- Parse the elements of a non-empty array, up to and including `]`. -/
def parseElems : Nat → List Char → Option (List JVal × List Char)
  | 0, _ => none
  | fuel+1, cs =>
      match parseValue fuel cs with
      | none => none
      | some (v, rest) =>
          match skipWs rest with
          | ',' :: rest2 =>
              match parseElems fuel rest2 with
              | some (vs, r) => some (v :: vs, r)
              | none => none
          | ']' :: rest2 => some ([v], rest2)
          | _ => none

/-- Parse the fields of a non-empty object, up to and including the closing
brace. -/
def parseFields : Nat → List Char → Option (List (String × JVal) × List Char)
  | 0, _ => none
  | fuel+1, cs =>
      match skipWs cs with
      | '"' :: rest =>
          match parseStringBody rest.length rest with
          | none => none
          | some (k, rest2) =>
              match skipWs rest2 with
              | ':' :: rest3 =>
                  match parseValue fuel rest3 with
                  | none => none
                  | some (v, rest4) =>
                      match skipWs rest4 with
                      | ',' :: rest5 =>
                          match parseFields fuel rest5 with
                          | some (fs, r) => some ((String.mk k, v) :: fs, r)
                          | none => none
                      | '\x7d' :: rest5 => some ([(String.mk k, v)], rest5)
                      | _ => none
              | _ => none
      | _ => none

end

/-- The dispatch body of `parseValue` once the head character is exposed
(a plain wrapper used to reason about the dispatch). -/
def valueDispatch (fuel : Nat) (c : Char) (rest : List Char) :
    Option (JVal × List Char) :=
  if c = 'n' then
    match rest with
    | 'u' :: 'l' :: 'l' :: r => some (JVal.null, r)
    | _ => none
  else if c = 't' then
    match rest with
    | 'r' :: 'u' :: 'e' :: r => some (JVal.bool true, r)
    | _ => none
  else if c = 'f' then
    match rest with
    | 'a' :: 'l' :: 's' :: 'e' :: r => some (JVal.bool false, r)
    | _ => none
  else if c = '"' then
    match parseStringBody rest.length rest with
    | some (s, r) => some (JVal.str (String.mk s), r)
    | none => none
  else if c = '[' then
    match skipWs rest with
    | ']' :: r => some (JVal.arr [], r)
    | rest2 =>
        match parseElems fuel rest2 with
        | some (vs, r) => some (JVal.arr vs, r)
        | none => none
  else if c = '\x7b' then
    match skipWs rest with
    | '\x7d' :: r => some (JVal.obj [], r)
    | rest2 =>
        match parseFields fuel rest2 with
        | some (fs, r) => some (JVal.obj fs, r)
        | none => none
  else if c = '-' ∨ isDigitCh c then
    match parseNumber (c :: rest) with
    | some ((m, e), r) => some (JVal.num m e, r)
    | none => none
  else none

/-- `json.Unmarshal` of a whole input: one value, then only whitespace. -/
def parseJson (s : String) : Option JVal :=
  match parseValue (s.length + 1) s.data with
  | some (v, rest) => if skipWs rest = [] then some v else none
  | none => none

/-! ### Number serialization round-trip -/
/-- The characters that can legally follow a serialized number inside
serializer output: a separator or closing bracket, or the end. -/
def numStopper (rest : List Char) : Prop :=
  match rest with
  | [] => True
  | c :: _ => c = ',' ∨ c = ']' ∨ c = '\x7d'

/-! ### String escaping round-trip -/
/-- The escaped body of a string literal (no quotes). -/
def escList (l : List Char) : List Char :=
  l.foldr (fun c acc => escapeChar c ++ acc) []

mutual

/-- Fuel needed by `parseValue` on serialized output. -/
def needV : JVal → Nat
  | .null => 1
  | .bool _ => 1
  | .num _ _ => 1
  | .str _ => 1
  | .arr xs => 1 + needE xs
  | .obj fs => 1 + needF fs

/-- Fuel needed by `parseElems` on serialized output. -/
def needE : List JVal → Nat
  | [] => 0
  | x :: xs => 1 + max (needV x) (needE xs)

/-- Fuel needed by `parseFields` on serialized output. -/
def needF : List (String × JVal) → Nat
  | [] => 0
  | kv :: fs => 1 + max (needV kv.2) (needF fs)

end

/-! ### The value codec of the controller (claim C7) -/
/-- `json.Marshal` sorts the keys of a Go map. -/
def sortFields (data : SMap) : SMap :=
  List.insertionSort (fun a b : String × String => a.1 ≤ b.1) data

/-- One entry of `prepareAwsSecretString`'s generic object for
`valueType: json`: re-parse the bytes as JSON when they are valid JSON, else
keep them as a raw string (`if json.Unmarshal(v, &vObj) == nil`). -/
def encodeEntry (v : String) : JVal :=
  match parseJson v with
  | some vObj => vObj
  | none => JVal.str v

/-- `prepareAwsSecretString`: marshal the data as one JSON object.  For
`valueType: json` each entry is re-parsed as JSON when possible; otherwise
(legacy kv) every entry is a string.  (Go returns `(string, error)`; the
marshal of these object shapes cannot fail, so the model returns the
string.) -/
def prepareAwsSecretString (data : SMap) (valueType : String) : String :=
  if valueType = "json" then
    String.mk (serializeJVal (JVal.obj
      ((sortFields data).map (fun kv => (kv.1, encodeEntry kv.2)))))
  else
    String.mk (serializeJVal (JVal.obj
      ((sortFields data).map (fun kv => (kv.1, JVal.str kv.2)))))

/-- One decoded entry of `parseAwsSecretValue` for `valueType: json`: a string
field is used verbatim, any other field is re-marshaled
(`case string: ... default: json.Marshal(t)`). -/
def decodeEntry (j : JVal) : String :=
  match j with
  | JVal.str t => t
  | j => String.mk (serializeJVal j)

/-- `parseAwsSecretValue`: for `valueType: json`, unmarshal into a generic
object and stringify each field with `decodeEntry`; otherwise (legacy)
unmarshal into a string-to-string map, which fails if any field is not a
string. -/
def parseAwsSecretValue (secretValue : String) (valueType : String) :
    Except String SMap :=
  if valueType = "json" then
    match parseJson secretValue with
    | some (JVal.obj fields) =>
        Except.ok (fields.map (fun kv => (kv.1, decodeEntry kv.2)))
    | _ => Except.error "cannot unmarshal into map[string]interface"
  else
    match parseJson secretValue with
    | some (JVal.obj fields) =>
        if fields.all (fun kv => match kv.2 with
            | JVal.str _ => true
            | _ => false) then
          Except.ok (fields.map (fun kv => (kv.1, decodeEntry kv.2)))
        else Except.error "cannot unmarshal into map[string]string"
    | _ => Except.error "cannot unmarshal into map[string]string"

/-! ## Theorems -/

@[simp] theorem ofirst_none {α : Type} (o : Option α) : ofirst none o = o := rfl

@[simp] theorem ofirst_some {α : Type} (v : α) (o : Option α) :
    ofirst (some v) o = some v := rfl

@[simp] theorem mfind_nil {α : Type} (k : String) :
    mfind ([] : List (String × α)) k = none := rfl

theorem mfind_cons {α : Type} (a : String) (b : α) (m : List (String × α))
    (k : String) :
    mfind ((a, b) :: m) k = if a = k then some b else mfind m k := rfl

theorem mfind_minsert {α : Type} (m : List (String × α)) (k k' : String) (v : α) :
    mfind (minsert m k v) k' = if k = k' then some v else mfind m k' := by
  induction m with
  | nil => simp [minsert, mfind]
  | cons hd tl ih =>
      obtain ⟨a, b⟩ := hd
      by_cases hak : a = k
      · subst hak
        by_cases hk' : a = k' <;> simp [minsert, mfind, hk']
      · by_cases hk' : a = k'
        · subst hk'
          simp only [minsert, if_neg hak, mfind, if_pos rfl]
          have : ¬ k = a := fun h => hak h.symm
          simp [this]
        · simp [minsert, mfind, hak, hk', ih]

theorem mem_mkeys_minsert {α : Type} (m : List (String × α)) (k : String) (v : α)
    (k' : String) :
    k' ∈ mkeys (minsert m k v) ↔ k' ∈ mkeys m ∨ k' = k := by
  induction m with
  | nil =>
      simp only [minsert, mkeys, List.map_cons, List.map_nil, List.mem_singleton,
        List.not_mem_nil, false_or]
  | cons hd tl ih =>
      obtain ⟨a, b⟩ := hd
      by_cases hak : a = k
      · subst hak
        simp [minsert, mkeys]
        tauto
      · simp only [minsert, if_neg hak, mkeys, List.map_cons, List.mem_cons] at ih ⊢
        tauto

theorem mfind_append {α : Type} (l₁ l₂ : List (String × α)) (k : String) :
    mfind (l₁ ++ l₂) k = ofirst (mfind l₁ k) (mfind l₂ k) := by
  induction l₁ with
  | nil => simp
  | cons hd tl ih =>
      obtain ⟨a, b⟩ := hd
      by_cases hak : a = k <;> simp [mfind_cons, hak, ih]

theorem mfind_eq_none_iff {α : Type} (m : List (String × α)) (k : String) :
    mfind m k = none ↔ k ∉ mkeys m := by
  induction m with
  | nil => simp [mkeys]
  | cons hd tl ih =>
      obtain ⟨a, b⟩ := hd
      by_cases hak : a = k
      · subst hak
        simp [mfind_cons, mkeys]
      · have hka : ¬ k = a := fun h => hak h.symm
        simp only [mfind_cons, if_neg hak, mkeys, List.map_cons, List.mem_cons,
          not_or, ih]
        constructor
        · intro h; exact ⟨hka, h⟩
        · intro h; exact h.2

theorem mem_of_mfind_eq_some {α : Type} (m : List (String × α)) (k : String)
    (v : α) (h : mfind m k = some v) : (k, v) ∈ m := by
  induction m with
  | nil => simp [mfind] at h
  | cons hd tl ih =>
      obtain ⟨a, b⟩ := hd
      by_cases hak : a = k
      · subst hak
        simp [mfind_cons] at h
        simp [h]
      · simp [mfind_cons, hak] at h
        exact List.mem_cons_of_mem _ (ih h)

theorem mfind_eq_some_of_mem {α : Type} (m : List (String × α))
    (hnd : (mkeys m).Nodup) (k : String) (v : α) (h : (k, v) ∈ m) :
    mfind m k = some v := by
  induction m with
  | nil => simp at h
  | cons hd tl ih =>
      obtain ⟨a, b⟩ := hd
      simp only [mkeys, List.map_cons, List.nodup_cons] at hnd
      rcases List.mem_cons.mp h with heq | hmem
      · obtain ⟨h1, h2⟩ := Prod.mk.injEq .. ▸ heq
        subst h1; subst h2
        simp [mfind_cons]
      · have hak : a ≠ k := by
          intro hcontra
          subst hcontra
          exact hnd.1 (List.mem_map.mpr ⟨(a, v), hmem, rfl⟩)
        simp [mfind_cons, hak]
        exact ih hnd.2 hmem

theorem mfind_insertAll {α : Type} (base xs : List (String × α)) (k : String) :
    mfind (insertAll base xs) k = ofirst (lastFind xs k) (mfind base k) := by
  induction xs generalizing base with
  | nil => simp [insertAll, lastFind]
  | cons hd tl ih =>
      obtain ⟨a, b⟩ := hd
      show mfind (insertAll (minsert base a b) tl) k = _
      rw [ih]
      simp only [lastFind, List.reverse_cons, mfind_append]
      rcases h : mfind tl.reverse k with _ | w
      · simp only [ofirst_none]
        rw [mfind_minsert]
        by_cases hak : a = k
        · subst hak; simp [mfind_cons]
        · have : ¬ k = a := fun hh => hak hh.symm
          simp [mfind_cons, hak, this]
      · simp [h]

theorem mkeys_reverse {α : Type} (xs : List (String × α)) :
    mkeys xs.reverse = (mkeys xs).reverse := by
  simp [mkeys, List.map_reverse]

/-- In a map whose keys are distinct, first and last lookup agree. -/
theorem lastFind_eq_mfind {α : Type} (xs : List (String × α))
    (h : (mkeys xs).Nodup) (k : String) : lastFind xs k = mfind xs k := by
  unfold lastFind
  rcases hm : mfind xs k with _ | v
  · rw [mfind_eq_none_iff] at hm ⊢
    rw [mkeys_reverse]
    simpa using hm
  · have hmem : (k, v) ∈ xs := mem_of_mfind_eq_some xs k v hm
    have hnd' : (mkeys xs.reverse).Nodup := by
      rw [mkeys_reverse]; exact List.nodup_reverse.mpr h
    exact mfind_eq_some_of_mem _ hnd' k v (List.mem_reverse.mpr hmem)

theorem mfind_insertAll_nodup {α : Type} (base xs : List (String × α))
    (h : (mkeys xs).Nodup) (k : String) :
    mfind (insertAll base xs) k = ofirst (mfind xs k) (mfind base k) := by
  rw [mfind_insertAll, lastFind_eq_mfind xs h]

/-! ## Supporting lemmas -/
theorem mfind_filter {α : Type} (p : String → Bool) (m : List (String × α))
    (k : String) :
    mfind (m.filter (fun kv => p kv.1)) k = if p k then mfind m k else none := by
  induction m with
  | nil => simp
  | cons hd tl ih =>
      obtain ⟨a, b⟩ := hd
      by_cases hp : p a
      · by_cases hak : a = k
        · subst hak; simp [List.filter_cons, hp, mfind_cons]
        · simp [List.filter_cons, hp, mfind_cons, hak, ih]
      · by_cases hak : a = k
        · subst hak; simp [List.filter_cons, hp, mfind_cons, ih]
        · simp [List.filter_cons, hp, mfind_cons, hak, ih]

theorem mem_mkeys_filter {α : Type} (p : String → Bool) (m : List (String × α))
    (k : String) :
    k ∈ mkeys (m.filter (fun kv => p kv.1)) ↔ k ∈ mkeys m ∧ p k := by
  constructor
  · intro h
    obtain ⟨⟨k', v⟩, hmem, hk⟩ := List.mem_map.mp h
    obtain ⟨hmem', hp⟩ := List.mem_filter.mp hmem
    cases hk
    exact ⟨List.mem_map.mpr ⟨(k', v), hmem', rfl⟩, hp⟩
  · rintro ⟨hmem, hp⟩
    obtain ⟨⟨k', v⟩, hmem', hk⟩ := List.mem_map.mp hmem
    cases hk
    exact List.mem_map.mpr ⟨(k', v), List.mem_filter.mpr ⟨hmem', hp⟩, rfl⟩

theorem mfind_pruneUnmanagedKeys (aSecret : ASecretSpec) (m : SMap) (k : String) :
    mfind (pruneUnmanagedKeys aSecret m) k =
      if k ∈ mkeys aSecret.data then mfind m k else none := by
  unfold pruneUnmanagedKeys
  rw [mfind_filter]
  simp only [List.contains, List.elem_eq_mem]
  by_cases h : k ∈ mkeys aSecret.data <;> simp [h]

theorem mem_mkeys_pruneUnmanagedKeys (aSecret : ASecretSpec) (m : SMap)
    (k : String) (h : k ∈ mkeys (pruneUnmanagedKeys aSecret m)) :
    k ∈ mkeys aSecret.data := by
  unfold pruneUnmanagedKeys at h
  obtain ⟨hm, hp⟩ := (mem_mkeys_filter _ m k).mp h
  simpa only [List.contains, List.elem_eq_mem, decide_eq_true_eq] using hp

theorem ofirst_none_right {α : Type} (o : Option α) : ofirst o none = o := by
  cases o <;> rfl

/-- With pruning off, `prepareNormalMergeData` is the raw two-source overlay;
with pruning on it is that overlay run through `pruneUnmanagedKeys`. -/
theorem prepareNormalMergeData_prune_eq (aSecret : ASecretSpec)
    (existingSecretData awsSecretData : SMap)
    (awsSecretExists kubeSecretExists : Bool) :
    prepareNormalMergeData aSecret existingSecretData awsSecretData
        awsSecretExists kubeSecretExists true =
      pruneUnmanagedKeys aSecret
        (prepareNormalMergeData aSecret existingSecretData awsSecretData
          awsSecretExists kubeSecretExists false) := rfl

/-! ## Claim C1 -/
/-- Claim C1 as stated is false: with the global `removeRemoteKeys` toggle
enabled and a vault key not declared in `spec.data`, the merge prunes that key,
so the merged map does not carry the vault's value for it even though the key
is present in both stores. -/
theorem claim1_counterexample :
    ("a", "1") ∈ ([("a", "1")] : SMap) ∧
    ("a", "x") ∈ ([("a", "x")] : SMap) ∧
    mfind (prepareNormalMergeData { data := [] } [("a", "x")] [("a", "1")] true
      true true) "a" = none := by
  decide

/-- Claim C1 (amended): for every key of the vault state (`awsSecretData`, a
Go map, so its keys are distinct), when the vault secret exists the merged map
carries the vault's value for that key — provided the global
`removeRemoteKeys` pruning toggle is off or the key is declared in
`spec.data` (otherwise pruning removes it). -/
theorem claim1_amended_vault_precedence (aSecret : ASecretSpec)
    (existingSecretData awsSecretData : SMap)
    (kubeSecretExists removeRemoteKeys : Bool) (k v : String)
    (hnd : (mkeys awsSecretData).Nodup)
    (hmem : (k, v) ∈ awsSecretData)
    (hmanaged : removeRemoteKeys = false ∨ k ∈ mkeys aSecret.data) :
    mfind (prepareNormalMergeData aSecret existingSecretData awsSecretData true
      kubeSecretExists removeRemoteKeys) k = some v := by
  have hbase : ∀ base : SMap, mfind (insertAll base awsSecretData) k = some v := by
    intro base
    rw [mfind_insertAll_nodup _ _ hnd,
      mfind_eq_some_of_mem awsSecretData hnd k v hmem]
    rfl
  cases removeRemoteKeys with
  | false =>
      show mfind (insertAll _ awsSecretData) k = some v
      exact hbase _
  | true =>
      have hk : k ∈ mkeys aSecret.data := by
        rcases hmanaged with h | h
        · exact absurd h (by simp)
        · exact h
      show mfind (pruneUnmanagedKeys aSecret (insertAll _ awsSecretData)) k = some v
      rw [mfind_pruneUnmanagedKeys, if_pos hk]
      exact hbase _

/-- Concrete instance of the amended C1. -/
theorem claim1_witness :
    mfind (prepareNormalMergeData { data := [("a", { value := "z" })] }
      [("a", "x")] [("a", "1")] true true true) "a" = some "1" :=
  claim1_amended_vault_precedence _ _ _ _ _ "a" "1" (by decide) (by decide)
    (Or.inr (by decide))

/-! ## Claim C2 -/
/-- Claim C2: with `onlyImportRemote` true at spec level, the computed secret
data is exactly the vault's values when the vault secret exists and the empty
map otherwise — for every existing cluster secret and every declared `data`
entry (they are not consulted) — and the reconciliation cycle issues no vault
write of any kind. -/
theorem claim2_import_only_short_circuit
    (resolveGenerator : String → Option AGeneratorSpec) (draws : Nat → Nat)
    (aSecret : ASecretSpec) (existingSecretData : SMap)
    (kubeSecretExists : Bool) (awsSecretData : SMap)
    (awsSecretExists removeRemoteKeys : Bool)
    (honly : aSecret.onlyImportRemote = some true)
    (hnd : (mkeys awsSecretData).Nodup) :
    ∃ acts,
      reconcileCompute resolveGenerator draws aSecret existingSecretData
          kubeSecretExists awsSecretData awsSecretExists removeRemoteKeys =
        Except.ok (prepareOnlyImportRemoteData awsSecretData awsSecretExists,
          acts) ∧
      (∀ k, mfind (prepareOnlyImportRemoteData awsSecretData awsSecretExists) k =
        if awsSecretExists then mfind awsSecretData k else none) ∧
      (∀ d, Action.writeVault d ∉ acts) := by
  refine ⟨[if ¬ kubeSecretExists then
    Action.createClusterSecret
      (prepareOnlyImportRemoteData awsSecretData awsSecretExists)
    else Action.updateClusterSecret
      (prepareOnlyImportRemoteData awsSecretData awsSecretExists)], ?_, ?_, ?_⟩
  · unfold reconcileCompute prepareSecretData
    simp only [honly]
    simp
  · intro k
    unfold prepareOnlyImportRemoteData
    cases awsSecretExists with
    | false => simp
    | true =>
        simp only [if_pos rfl, if_true]
        rw [mfind_insertAll_nodup _ _ hnd]
        simp only [mfind_nil]
        exact ofirst_none_right _
  · intro d hmem
    by_cases hk : kubeSecretExists <;> simp [hk] at hmem

/-- Concrete instance of C2. -/
theorem claim2_witness :
    ∃ acts,
      reconcileCompute (fun _ => none) (fun _ => 0)
          { data := [("x", { value := "ignored" })],
            onlyImportRemote := some true }
          [("stale", "s")] true [("a", "1"), ("b", "2")] true false =
        Except.ok (prepareOnlyImportRemoteData [("a", "1"), ("b", "2")] true,
          acts) ∧
      (∀ k, mfind (prepareOnlyImportRemoteData [("a", "1"), ("b", "2")] true) k =
        if true then mfind [("a", "1"), ("b", "2")] k else none) ∧
      (∀ d, Action.writeVault d ∉ acts) :=
  claim2_import_only_short_circuit (fun _ => none) (fun _ => 0) _ _ _ _ _ _
    (by decide) (by decide)

/-! ## Claim C3 -/
/-- Claim C3's "in particular" clause is false: here the computed data and the
vault hold exactly the same single binding `a ↦ 1`, whose `DataSource` is
declared `onlyImportRemote: true`, yet `shouldUpdateAwsSecret` still reports a
required vault write — the import-only key is removed from the comparable set,
so the vault-side copy registers as an extra key. -/
theorem claim3_counterexample :
    shouldUpdateAwsSecret { data := [("a", { onlyImportRemote := some true })] }
      [("a", "1")] [("a", "1")] true = true ∧
    shouldSkipKeyForAwsUpdate
      { data := [("a", { onlyImportRemote := some true })] } "a" = true := by
  decide

/-- Claim C3 (amended): `shouldUpdateAwsSecret` returns true when the vault
secret does not exist; otherwise it returns true iff the key set of the
computed data restricted to non-import-only keys differs from the vault's key
set in either direction.  (Hence a value-only difference on a shared key never
triggers a write, and an import-only key absent from the vault adds nothing to
the comparison; but an import-only key *present* in the vault does trigger a
write, because it is excluded from the comparable set.) -/
theorem claim3_amended_change_detection (aSecret : ASecretSpec)
    (secretData awsSecretData : SMap) (awsSecretExists : Bool) :
    shouldUpdateAwsSecret aSecret secretData awsSecretData awsSecretExists =
        true ↔
      (awsSecretExists = false ∨
       (∃ k, k ∈ mkeys secretData ∧
         shouldSkipKeyForAwsUpdate aSecret k = false ∧
         k ∉ mkeys awsSecretData) ∨
       (∃ k, k ∈ mkeys awsSecretData ∧
         ¬ (k ∈ mkeys secretData ∧
            shouldSkipKeyForAwsUpdate aSecret k = false))) := by
  have heq : shouldUpdateAwsSecret aSecret secretData awsSecretData
      awsSecretExists =
      (!awsSecretExists ||
        ((filterAwsUpdateData aSecret secretData).any
          (fun kv => (mfind awsSecretData kv.1).isNone) ||
         awsSecretData.any
          (fun kv =>
            (mfind (filterAwsUpdateData aSecret secretData) kv.1).isNone))) := by
    cases awsSecretExists <;>
      simp [shouldUpdateAwsSecret, calculateKeyDifferences]
  cases awsSecretExists with
  | false => simp [heq]
  | true =>
      rw [heq]
      simp only [Bool.not_true, Bool.false_or, Bool.or_eq_true,
        List.any_eq_true, Option.isNone_iff_eq_none, Bool.true_eq_false,
        false_or]
      constructor
      · rintro (⟨⟨k, v⟩, hmem, hnone⟩ | ⟨⟨k, v⟩, hmem, hnone⟩)
        · obtain ⟨hmem', hp⟩ := List.mem_filter.mp hmem
          refine Or.inl ⟨k, List.mem_map.mpr ⟨(k, v), hmem', rfl⟩, ?_, ?_⟩
          · simpa using hp
          · exact (mfind_eq_none_iff _ _).mp hnone
        · refine Or.inr ⟨k, List.mem_map.mpr ⟨(k, v), hmem, rfl⟩, ?_⟩
          have hk := (mfind_eq_none_iff _ _).mp hnone
          intro hcontra
          apply hk
          exact (mem_mkeys_filter
            (fun x => decide (¬ shouldSkipKeyForAwsUpdate aSecret x = true))
            secretData k).mpr ⟨hcontra.1, by simp [hcontra.2]⟩
      · rintro (⟨k, hmem, hskip, hnot⟩ | ⟨k, hmem, hnot⟩)
        · obtain ⟨⟨k', v⟩, hmem', hk⟩ := List.mem_map.mp hmem
          cases hk
          refine Or.inl ⟨(k', v), List.mem_filter.mpr ⟨hmem', by simp [hskip]⟩,
            (mfind_eq_none_iff _ _).mpr hnot⟩
        · obtain ⟨⟨k', v⟩, hmem', hk⟩ := List.mem_map.mp hmem
          cases hk
          refine Or.inr ⟨(k', v), hmem', (mfind_eq_none_iff _ _).mpr ?_⟩
          intro hcontra
          apply hnot
          have hc := (mem_mkeys_filter
            (fun x => decide (¬ shouldSkipKeyForAwsUpdate aSecret x = true))
            secretData k').mp hcontra
          exact ⟨hc.1, by simpa using hc.2⟩

/-- Concrete instance of the amended C3. -/
theorem claim3_witness :
    shouldUpdateAwsSecret { data := [] } [("n", "1")] [] true = true :=
  (claim3_amended_change_detection { data := [] } [("n", "1")] [] true).mpr
    (Or.inr (Or.inl ⟨"n", by decide, by decide, by decide⟩))

/-! ## Claim C4 -/
/-- Claim C4's "never removes vault-sourced keys" is false: the vault holds
`a ↦ 1`, the spec declares nothing, pruning is enabled — and the merged map
has lost the vault-sourced key `a`. -/
theorem claim4_counterexample :
    ("a", "1") ∈ ([("a", "1")] : SMap) ∧
    mfind (prepareNormalMergeData { data := [] } [] [("a", "1")] true false
      true) "a" = none := by
  decide

/-- Claim C4 (amended): with the global `removeRemoteKeys` toggle enabled the
post-prune key set is a subset of `spec.data`'s keys (hence of the union of
`spec.data`'s and the vault's keys); pruning only removes entries, never adds
or rewrites any; it removes every key not declared in `spec.data` —
including vault-sourced ones — and never removes a key declared in
`spec.data`. -/
theorem claim4_amended_prune_subset (aSecret : ASecretSpec)
    (existingSecretData awsSecretData : SMap)
    (awsSecretExists kubeSecretExists : Bool) :
    (∀ k, k ∈ mkeys (prepareNormalMergeData aSecret existingSecretData
        awsSecretData awsSecretExists kubeSecretExists true) →
      k ∈ mkeys aSecret.data ∨ k ∈ mkeys awsSecretData) ∧
    (∀ k v, mfind (prepareNormalMergeData aSecret existingSecretData
        awsSecretData awsSecretExists kubeSecretExists true) k = some v →
      mfind (prepareNormalMergeData aSecret existingSecretData awsSecretData
        awsSecretExists kubeSecretExists false) k = some v) ∧
    (∀ k, k ∉ mkeys aSecret.data →
      mfind (prepareNormalMergeData aSecret existingSecretData awsSecretData
        awsSecretExists kubeSecretExists true) k = none) ∧
    (∀ k, k ∈ mkeys aSecret.data →
      mfind (prepareNormalMergeData aSecret existingSecretData awsSecretData
        awsSecretExists kubeSecretExists true) k =
      mfind (prepareNormalMergeData aSecret existingSecretData awsSecretData
        awsSecretExists kubeSecretExists false) k) := by
  rw [prepareNormalMergeData_prune_eq]
  refine ⟨?_, ?_, ?_, ?_⟩
  · intro k hk
    exact Or.inl (mem_mkeys_pruneUnmanagedKeys _ _ _ hk)
  · intro k v hk
    rw [mfind_pruneUnmanagedKeys] at hk
    by_cases h : k ∈ mkeys aSecret.data
    · rw [if_pos h] at hk; exact hk
    · rw [if_neg h] at hk; exact absurd hk (by simp)
  · intro k hk
    rw [mfind_pruneUnmanagedKeys, if_neg hk]
  · intro k hk
    rw [mfind_pruneUnmanagedKeys, if_pos hk]

/-- Concrete instance of the amended C4. -/
theorem claim4_witness :
    mfind (prepareNormalMergeData { data := [] } [] [("a", "1")] true false
      true) "a" = none :=
  (claim4_amended_prune_subset { data := [] } [] [("a", "1")] true false).2.2.1
    "a" (by decide)

/-! ## Claim C5 -/
/-- If some declared key is not import-only, not already present, has no
static value and references an unresolvable generator, then
`processASecretData` fails, whatever else the entry list holds. -/
theorem processASecretData_error_of_unresolvable
    (resolveGenerator : String → Option AGeneratorSpec) (draws : Nat → Nat)
    (k : String) (ds : DataSource)
    (hio : ¬ ds.onlyImportRemote = some true) (hval : ds.value = "")
    (gr : GeneratorReference) (hgr : ds.generatorRef = some gr)
    (hres : resolveGenerator gr.name = none) :
    ∀ (l : List (String × DataSource)) (m : SMap), (mkeys l).Nodup →
      (k, ds) ∈ l → mfind m k = none →
      ∃ e, processASecretData resolveGenerator draws l m = Except.error e := by
  intro l
  induction l with
  | nil =>
      intro m _ hmem _
      simp at hmem
  | cons hd rest ih =>
      intro m hnd hmem habsent
      obtain ⟨k', ds'⟩ := hd
      simp only [mkeys, List.map_cons, List.nodup_cons] at hnd
      rcases List.mem_cons.mp hmem with heq | hrest
      · injection heq with h1 h2
        subst h1; subst h2
        refine ⟨"failed to get generator " ++ gr.name, ?_⟩
        have hgen : generateValue resolveGenerator draws gr.name =
            Except.error ("failed to get generator " ++ gr.name) := by
          unfold generateValue
          rw [hres]
        unfold processASecretData
        rw [if_neg hio, if_neg (by simp [habsent]), if_neg (by simp [hval]),
          hgr]
        simp only [hgen]
      · have hkk : k' ≠ k := by
          intro hc
          subst hc
          exact hnd.1 (List.mem_map.mpr ⟨(k', ds), hrest, rfl⟩)
        have habsent' : ∀ w, mfind (minsert m k' w) k = none := by
          intro w
          rw [mfind_minsert, if_neg hkk]
          exact habsent
        unfold processASecretData
        by_cases h1 : ds'.onlyImportRemote = some true
        · rw [if_pos h1]
          exact ih m hnd.2 hrest habsent
        · rw [if_neg h1]
          by_cases h2 : (mfind m k').isSome
          · rw [if_pos h2]
            exact ih m hnd.2 hrest habsent
          · rw [if_neg h2]
            by_cases h3 : ds'.value ≠ ""
            · rw [if_pos h3]
              exact ih _ hnd.2 hrest (habsent' _)
            · rw [if_neg h3]
              cases hgr' : ds'.generatorRef with
              | none =>
                  exact ih m hnd.2 hrest habsent
              | some gr' =>
                  show ∃ e,
                    (match generateValue resolveGenerator draws gr'.name with
                     | Except.error e => Except.error e
                     | Except.ok generatedValue =>
                         processASecretData resolveGenerator draws rest
                           (minsert m k' generatedValue)) = Except.error e
                  cases hgen : generateValue resolveGenerator draws gr'.name with
                  | error e =>
                      exact ⟨e, rfl⟩
                  | ok w =>
                      exact ih _ hnd.2 hrest (habsent' _)

/-- Claim C5: if any declared entry references a generator that cannot be
resolved (and that entry would actually be produced: not import-only, not
already present, no static value), `processASecretData` returns an error, and
the reconciliation cycle aborts with that error — no cluster-secret write and
no vault write is issued, so nothing is partially applied to either store. -/
theorem claim5_generator_failure_aborts
    (resolveGenerator : String → Option AGeneratorSpec) (draws : Nat → Nat)
    (aSecret : ASecretSpec) (existingSecretData : SMap)
    (kubeSecretExists : Bool) (awsSecretData : SMap)
    (awsSecretExists removeRemoteKeys : Bool)
    (hnd : (mkeys aSecret.data).Nodup)
    (honly : ¬ aSecret.onlyImportRemote = some true)
    (hfail : ∃ k ds, (k, ds) ∈ aSecret.data ∧
      ¬ ds.onlyImportRemote = some true ∧
      mfind (prepareSecretData aSecret existingSecretData awsSecretData
        awsSecretExists kubeSecretExists removeRemoteKeys) k = none ∧
      ds.value = "" ∧
      ∃ gr, ds.generatorRef = some gr ∧ resolveGenerator gr.name = none) :
    (∃ e, processASecretData resolveGenerator draws aSecret.data
      (prepareSecretData aSecret existingSecretData awsSecretData
        awsSecretExists kubeSecretExists removeRemoteKeys) =
      Except.error e) ∧
    (∃ e, reconcileCompute resolveGenerator draws aSecret existingSecretData
      kubeSecretExists awsSecretData awsSecretExists removeRemoteKeys =
      Except.error e) := by
  obtain ⟨k, ds, hmem, hio, habsent, hval, gr, hgr, hres⟩ := hfail
  have hproc := processASecretData_error_of_unresolvable resolveGenerator draws
    k ds hio hval gr hgr hres aSecret.data _ hnd hmem habsent
  refine ⟨hproc, ?_⟩
  obtain ⟨e, he⟩ := hproc
  refine ⟨e, ?_⟩
  simp only [reconcileCompute]
  rw [if_pos honly, he]

/-- Concrete instance of C5: a declared key `p` references the generator
`gen`, which does not resolve; the cycle errors out. -/
theorem claim5_witness :
    (∃ e, processASecretData (fun _ => none) (fun _ => 0)
      [("p", { generatorRef := some { name := "gen" } })]
      (prepareSecretData
        { data := [("p", { generatorRef := some { name := "gen" } })] }
        [] [] false false false) = Except.error e) ∧
    (∃ e, reconcileCompute (fun _ => none) (fun _ => 0)
      { data := [("p", { generatorRef := some { name := "gen" } })] }
      [] false [] false false = Except.error e) :=
  claim5_generator_failure_aborts (fun _ => none) (fun _ => 0)
    { data := [("p", { generatorRef := some { name := "gen" } })] }
    [] false [] false false (by decide) (by decide)
    ⟨"p", { generatorRef := some { name := "gen" } }, by decide, by decide,
      by rfl, by decide, { name := "gen" }, by decide, rfl⟩

/-! ## Claim C8 -/
/-- Claim C8: a key already present in the pre-merge secret data keeps its
value through `processASecretData`, whatever `spec.data` declares for it —
only absent keys can be set. -/
theorem claim8_non_destructive_declaration
    (resolveGenerator : String → Option AGeneratorSpec) (draws : Nat → Nat)
    (k : String) (v : String) :
    ∀ (l : List (String × DataSource)) (m result : SMap),
      mfind m k = some v →
      processASecretData resolveGenerator draws l m = Except.ok result →
      mfind result k = some v := by
  intro l
  induction l with
  | nil =>
      intro m result hpre hok
      unfold processASecretData at hok
      injection hok with h
      exact h ▸ hpre
  | cons hd rest ih =>
      intro m result hpre hok
      obtain ⟨k', ds'⟩ := hd
      have hinsert : ∀ w, mfind m k' = none →
          mfind (minsert m k' w) k = some v := by
        intro w hnone
        have hkk : k' ≠ k := by
          intro hc
          subst hc
          rw [hpre] at hnone
          exact Option.noConfusion hnone
        rw [mfind_minsert, if_neg hkk]
        exact hpre
      unfold processASecretData at hok
      by_cases h1 : ds'.onlyImportRemote = some true
      · rw [if_pos h1] at hok
        exact ih m result hpre hok
      · rw [if_neg h1] at hok
        by_cases h2 : (mfind m k').isSome
        · rw [if_pos h2] at hok
          exact ih m result hpre hok
        · rw [if_neg h2] at hok
          have hnone : mfind m k' = none := by
            cases hmk : mfind m k' with
            | none => rfl
            | some w => rw [hmk] at h2; simp at h2
          by_cases h3 : ds'.value ≠ ""
          · rw [if_pos h3] at hok
            exact ih _ result (hinsert _ hnone) hok
          · rw [if_neg h3] at hok
            cases hgr' : ds'.generatorRef with
            | none =>
                rw [hgr'] at hok
                exact ih m result hpre hok
            | some gr' =>
                rw [hgr'] at hok
                have hok' :
                    (match generateValue resolveGenerator draws gr'.name with
                     | Except.error e => Except.error e
                     | Except.ok generatedValue =>
                         processASecretData resolveGenerator draws rest
                           (minsert m k' generatedValue)) =
                      Except.ok result := hok
                cases hgen : generateValue resolveGenerator draws gr'.name with
                | error e =>
                    rw [hgen] at hok'
                    exact Except.noConfusion hok'
                | ok w =>
                    rw [hgen] at hok'
                    exact ih _ result (hinsert _ hnone) hok'

/-- Concrete instance of C8: the pre-merge value of `u` survives a conflicting
static declaration. -/
theorem claim8_witness :
    processASecretData (fun _ => none) (fun _ => 0)
      [("u", { value := "overwrite-attempt" })] [("u", "kept")] =
      Except.ok [("u", "kept")] ∧
    mfind [("u", "kept")] "u" = some "kept" :=
  ⟨by rfl,
    claim8_non_destructive_declaration (fun _ => none) (fun _ => 0) "u" "kept"
      [("u", { value := "overwrite-attempt" })] [("u", "kept")] [("u", "kept")]
      (by rfl) (by rfl)⟩

/-! ## Claim C9 -/
/-- Claim C9: a generator specification with all four character classes
disabled, or with a non-positive length, makes value generation fail with a
validation error (no silent empty value, no panic). -/
theorem claim9_generator_validation (draws : Nat → Nat)
    (gspec : AGeneratorSpec)
    (hbad : (gspec.includeUppercase = false ∧ gspec.includeLowercase = false ∧
             gspec.includeNumbers = false ∧ gspec.includeSpecialChars = false) ∨
            gspec.length ≤ 0) :
    ∃ e, GenerateRandomString draws gspec = Except.error e := by
  unfold GenerateRandomString ValidateGeneratorSpec
  by_cases hcls : ¬ gspec.includeUppercase ∧ ¬ gspec.includeLowercase ∧
      ¬ gspec.includeNumbers ∧ ¬ gspec.includeSpecialChars
  · rw [if_pos hcls]
    exact ⟨_, rfl⟩
  · rw [if_neg hcls]
    have hlen : gspec.length ≤ 0 := by
      rcases hbad with hall | hlen
      · exact absurd (by simp [hall.1, hall.2.1, hall.2.2.1, hall.2.2.2]) hcls
      · exact hlen
    rw [if_pos hlen]
    exact ⟨_, rfl⟩

/-- Concrete instance of C9. -/
theorem claim9_witness :
    ∃ e, GenerateRandomString (fun _ => 0)
      { length := 0, includeUppercase := true, includeLowercase := true,
        includeNumbers := true, includeSpecialChars := false } =
      Except.error e :=
  claim9_generator_validation (fun _ => 0) _ (Or.inr (by decide))

/-! ## Claim C10 -/
/-- Claim C10: any reconciliation cycle that reaches the write phase (i.e.
returns successfully) issues exactly one cluster-secret write — a create when
the Kubernetes secret is absent, an update otherwise, with no comparison
against the old data — while the vault write appears in the trace exactly when
`onlyImportRemote` is off and change detection demands it. -/
theorem claim10_cluster_write_unconditional
    (resolveGenerator : String → Option AGeneratorSpec) (draws : Nat → Nat)
    (aSecret : ASecretSpec) (existingSecretData : SMap)
    (kubeSecretExists : Bool) (awsSecretData : SMap)
    (awsSecretExists removeRemoteKeys : Bool) (d : SMap) (acts : List Action)
    (h : reconcileCompute resolveGenerator draws aSecret existingSecretData
      kubeSecretExists awsSecretData awsSecretExists removeRemoteKeys =
      Except.ok (d, acts)) :
    (kubeSecretExists = false → acts.head? = some (Action.createClusterSecret d)) ∧
    (kubeSecretExists = true → acts.head? = some (Action.updateClusterSecret d)) ∧
    (Action.writeVault d ∈ acts ↔
      (¬ aSecret.onlyImportRemote = some true ∧
       shouldUpdateAwsSecret aSecret d awsSecretData awsSecretExists = true)) := by
  simp only [reconcileCompute] at h
  cases hp : (if ¬ aSecret.onlyImportRemote = some true then
      processASecretData resolveGenerator draws aSecret.data
        (prepareSecretData aSecret existingSecretData awsSecretData
          awsSecretExists kubeSecretExists removeRemoteKeys)
    else Except.ok (prepareSecretData aSecret existingSecretData awsSecretData
      awsSecretExists kubeSecretExists removeRemoteKeys)) with
  | error e =>
      rw [hp] at h
      exact Except.noConfusion h
  | ok sd =>
      rw [hp] at h
      injection h with h'
      injection h' with h1 h2
      subst h1
      subst h2
      refine ⟨?_, ?_, ?_⟩
      · intro hk
        subst hk
        simp
      · intro hk
        subst hk
        simp
      · by_cases hg : ¬ aSecret.onlyImportRemote = some true ∧
            shouldUpdateAwsSecret aSecret sd awsSecretData awsSecretExists
        · rw [if_pos hg]
          constructor
          · intro _
            exact ⟨hg.1, hg.2⟩
          · intro _
            cases kubeSecretExists <;> simp
        · rw [if_neg hg]
          constructor
          · intro hmem
            cases kubeSecretExists <;> simp at hmem
          · intro hc
            exact absurd ⟨hc.1, hc.2⟩ hg

/-- Concrete instance of C10: a successful cycle on an absent Kubernetes
secret and absent vault secret creates the cluster secret and writes the
vault. -/
theorem claim10_witness :
    (false = false →
      ([Action.createClusterSecret [("u", "admin")],
        Action.writeVault [("u", "admin")]] : List Action).head? =
        some (Action.createClusterSecret [("u", "admin")])) ∧
    (false = true →
      ([Action.createClusterSecret [("u", "admin")],
        Action.writeVault [("u", "admin")]] : List Action).head? =
        some (Action.updateClusterSecret [("u", "admin")])) ∧
    (Action.writeVault [("u", "admin")] ∈
        ([Action.createClusterSecret [("u", "admin")],
          Action.writeVault [("u", "admin")]] : List Action) ↔
      (¬ (({ data := [("u", { value := "admin" })] } : ASecretSpec)).onlyImportRemote = some true ∧
       shouldUpdateAwsSecret { data := [("u", { value := "admin" })] }
         [("u", "admin")] [] false = true)) :=
  claim10_cluster_write_unconditional (fun _ => none) (fun _ => 0)
    { data := [("u", { value := "admin" })] } [] false [] false false
    [("u", "admin")]
    [Action.createClusterSecret [("u", "admin")],
     Action.writeVault [("u", "admin")]] (by rfl)

/-- Claim C6: for `valueType: binary` the pre-write validation errors iff the
computed TargetValueSet has more than one key; the error is raised instead of
any store write (the error result carries no store call at all), and a set
with at most one key passes. -/
theorem claim6_binary_cardinality (aSecret : ASecretSpec) (data : SMap)
    (kubeSecretExists vaultExists : Bool)
    ( _hbin : aSecret.valueType = "binary") :
    ((∃ e, binaryWritePhase aSecret data kubeSecretExists vaultExists =
        Except.error e) ↔ 1 < data.length) ∧
    (1 < data.length →
      binaryWritePhase aSecret data kubeSecretExists vaultExists =
        Except.error "binary secrets can only contain one key-value pair") ∧
    (∀ ops, binaryWritePhase aSecret data kubeSecretExists vaultExists =
        Except.ok ops → data.length ≤ 1) := by
  unfold binaryWritePhase
  by_cases hlen : data.length > 1
  · rw [if_pos hlen]
    refine ⟨⟨fun _ => hlen, fun _ => ⟨_, rfl⟩⟩, fun _ => rfl, ?_⟩
    intro ops hops
    exact Except.noConfusion hops
  · rw [if_neg hlen]
    refine ⟨⟨?_, fun hc => absurd hc hlen⟩, fun hc => absurd hc hlen, ?_⟩
    · rintro ⟨e, he⟩
      exact Except.noConfusion he
    · intro ops _
      omega

/-- Concrete instance of C6: two declared keys for a binary secret are
rejected before any store call. -/
theorem claim6_witness :
    ((∃ e, binaryWritePhase { valueType := "binary" }
        [("tls.crt", "cert-data"), ("tls.key", "key-data")] true true =
        Except.error e) ↔
      1 < ([("tls.crt", "cert-data"), ("tls.key", "key-data")] : SMap).length) ∧
    (1 < ([("tls.crt", "cert-data"), ("tls.key", "key-data")] : SMap).length →
      binaryWritePhase { valueType := "binary" }
        [("tls.crt", "cert-data"), ("tls.key", "key-data")] true true =
        Except.error "binary secrets can only contain one key-value pair") ∧
    (∀ ops, binaryWritePhase { valueType := "binary" }
        [("tls.crt", "cert-data"), ("tls.key", "key-data")] true true =
        Except.ok ops →
      ([("tls.crt", "cert-data"), ("tls.key", "key-data")] : SMap).length ≤ 1) :=
  claim6_binary_cardinality { valueType := "binary" }
    [("tls.crt", "cert-data"), ("tls.key", "key-data")] true true (by rfl)

/-- Induction over `JVal` with membership hypotheses for the nested lists. -/
theorem jval_induction {P : JVal → Prop}
    (h1 : P JVal.null) (h2 : ∀ b, P (JVal.bool b))
    (h3 : ∀ m e, P (JVal.num m e)) (h4 : ∀ s, P (JVal.str s))
    (h5 : ∀ xs, (∀ x ∈ xs, P x) → P (JVal.arr xs))
    (h6 : ∀ fs, (∀ kv ∈ fs, P kv.2) → P (JVal.obj fs)) : ∀ v, P v
  | JVal.null => h1
  | JVal.bool b => h2 b
  | JVal.num m e => h3 m e
  | JVal.str s => h4 s
  | JVal.arr xs =>
      h5 xs (fun x hx =>
        have : sizeOf x < 1 + sizeOf xs := by
          have hlt := List.sizeOf_lt_of_mem hx
          omega
        jval_induction h1 h2 h3 h4 h5 h6 x)
  | JVal.obj fs =>
      h6 fs (fun kv hkv =>
        have : sizeOf kv.2 < 1 + sizeOf fs := by
          have hlt := List.sizeOf_lt_of_mem hkv
          obtain ⟨a, b⟩ := kv
          simp only [Prod.mk.sizeOf_spec] at hlt
          simp only []
          omega
        jval_induction h1 h2 h3 h4 h5 h6 kv.2)
termination_by v => sizeOf v

/-! ### Digit and character lemmas -/
theorem digitVal_digitCh (d : Nat) (h : d < 10) : digitVal (digitCh d) = d := by
  interval_cases d <;> decide

theorem isDigitCh_digitCh (d : Nat) (h : d < 10) :
    isDigitCh (digitCh d) = true := by
  interval_cases d <;> decide

theorem hexVal_hexDigitCh (n : Nat) (h : n < 16) :
    hexVal (hexDigitCh n) = some n := by
  interval_cases n <;> decide

theorem digitCh_ne_zero (d : Nat) (h : d < 10) (hne : d ≠ 0) :
    digitCh d ≠ '0' := by
  interval_cases d <;> simp_all <;> decide

/-- Digits runs: `takeDigits` splits a digit run followed by a non-digit. -/
theorem takeDigits_append (ds rest : List Char)
    (hds : ∀ c ∈ ds, isDigitCh c = true)
    (hrest : ∀ c, rest.head? = some c → isDigitCh c = false) :
    takeDigits (ds ++ rest) = (ds, rest) := by
  induction ds with
  | nil =>
      cases rest with
      | nil => rfl
      | cons c t =>
          have := hrest c rfl
          simp [takeDigits, this]
  | cons c t ih =>
      have hc := hds c (by simp)
      have ih' := ih (fun x hx => hds x (by simp [hx]))
      simp only [List.cons_append, takeDigits, hc, if_true, List.append_eq, ih']

theorem digitsVal_foldl (l : List Char) (acc : Nat) :
    l.foldl (fun a c => 10 * a + digitVal c) acc =
      acc * 10 ^ l.length + digitsVal l := by
  induction l generalizing acc with
  | nil => simp [digitsVal]
  | cons c t ih =>
      show List.foldl _ (10 * acc + digitVal c) t = _
      rw [ih (10 * acc + digitVal c)]
      have h2 : digitsVal (c :: t) =
          (10 * 0 + digitVal c) * 10 ^ t.length + digitsVal t := by
        show List.foldl _ (10 * 0 + digitVal c) t = _
        rw [ih (10 * 0 + digitVal c)]
      rw [List.length_cons, h2]
      ring

theorem digitsVal_append (a b : List Char) :
    digitsVal (a ++ b) = digitsVal a * 10 ^ b.length + digitsVal b := by
  unfold digitsVal
  rw [List.foldl_append, digitsVal_foldl]
  rfl

theorem digitsVal_replicate_zero (k : Nat) :
    digitsVal (List.replicate k '0') = 0 := by
  induction k with
  | zero => rfl
  | succ n ih =>
      have h0 : digitVal '0' = 0 := by decide
      have hstep : digitsVal (List.replicate (n + 1) '0') =
          List.foldl (fun a c => 10 * a + digitVal c) (10 * 0 + digitVal '0')
            (List.replicate n '0') := rfl
      rw [hstep, digitsVal_foldl, h0, ih]
      simp

theorem digitsVal_natDigitChars (n : Nat) :
    digitsVal (natDigitChars n) = n := by
  unfold natDigitChars
  suffices h : ∀ L : List Nat, (∀ d ∈ L, d < 10) →
      digitsVal ((L.map digitCh).reverse) = Nat.ofDigits 10 L by
    rw [h (Nat.digits 10 n) (fun d hd => Nat.digits_lt_base (by omega) hd),
      Nat.ofDigits_digits]
  intro L
  induction L with
  | nil => intro _; rfl
  | cons d t ih =>
      intro hlt
      simp only [List.map_cons, List.reverse_cons]
      rw [digitsVal_append]
      simp only [List.length_singleton]
      rw [ih (fun x hx => hlt x (by simp [hx]))]
      have : digitsVal [digitCh d] = d := by
        unfold digitsVal
        simp [digitVal_digitCh d (hlt d (by simp))]
      rw [this, Nat.ofDigits_cons]
      ring

theorem natDigitChars_all_digits (n : Nat) :
    ∀ c ∈ natDigitChars n, isDigitCh c = true := by
  intro c hc
  unfold natDigitChars at hc
  rw [List.mem_reverse] at hc
  obtain ⟨d, hd, rfl⟩ := List.mem_map.mp hc
  exact isDigitCh_digitCh d (Nat.digits_lt_base (by omega) hd)

theorem natDigitChars_ne_nil (n : Nat) (h : n ≠ 0) : natDigitChars n ≠ [] := by
  unfold natDigitChars
  simp [Nat.digits_ne_nil_iff_ne_zero.mpr h]

theorem natDigitChars_length_pos (n : Nat) (h : n ≠ 0) :
    0 < (natDigitChars n).length :=
  List.length_pos.mpr (natDigitChars_ne_nil n h)

theorem natDigitChars_head_ne_zero (n : Nat) (h : n ≠ 0) :
    ∀ c, (natDigitChars n).head? = some c → c ≠ '0' := by
  intro c hc
  unfold natDigitChars at hc
  rw [List.head?_reverse] at hc
  have hlast : (Nat.digits 10 n).getLast? =
      some ((Nat.digits 10 n).getLast (Nat.digits_ne_nil_iff_ne_zero.mpr h)) :=
    List.getLast?_eq_getLast _ _
  rw [List.getLast?_map] at hc
  rw [hlast] at hc
  have hc' : digitCh ((Nat.digits 10 n).getLast
      (Nat.digits_ne_nil_iff_ne_zero.mpr h)) = c := by simpa using hc
  subst hc'
  have hne := Nat.getLast_digit_ne_zero 10 h
  have hlt : (Nat.digits 10 n).getLast (Nat.digits_ne_nil_iff_ne_zero.mpr h) < 10 :=
    Nat.digits_lt_base (by omega) (List.getLast_mem _)
  exact digitCh_ne_zero _ hlt hne

/-! ### Number normalization lemmas -/
theorem stripTensN_eq_self (n : Nat) (e : Int) (h : n = 0 ∨ n % 10 ≠ 0) :
    stripTensN n e = (n, e) := by
  rw [stripTensN]
  have hcond : ¬ (n ≠ 0 ∧ n % 10 = 0) := by
    rcases h with h | h
    · intro hc; exact hc.1 h
    · intro hc; exact h hc.2
  rw [dif_neg hcond]

theorem stripTensN_mul_pow (n : Nat) (hn : n ≠ 0) (hd : n % 10 ≠ 0) :
    ∀ (k : Nat) (e : Int), stripTensN (n * 10 ^ k) e = (n, e + k) := by
  intro k
  induction k with
  | zero =>
      intro e
      simpa using stripTensN_eq_self n e (Or.inr hd)
  | succ j ih =>
      intro e
      have hnz : n * 10 ^ (j + 1) ≠ 0 := by positivity
      have hmod : (n * 10 ^ (j + 1)) % 10 = 0 := by
        have : n * 10 ^ (j + 1) = (n * 10 ^ j) * 10 := by ring
        simp [this, Nat.mul_mod_left]
      rw [stripTensN]
      simp only [hnz, hmod, ne_eq, not_false_eq_true, and_self, if_true, dite_true]
      have harg : n * 10 ^ (j + 1) / 10 = n * 10 ^ j := by
        have : n * 10 ^ (j + 1) = (n * 10 ^ j) * 10 := by ring
        simp [this]
      rw [harg, ih (e + 1)]
      congr 1
      omega

/-- `stripTensN` of a nonzero input yields a nonzero, ten-free mantissa. -/
theorem stripTensN_spec (n : Nat) (hn : n ≠ 0) :
    ∀ e : Int, (stripTensN n e).1 ≠ 0 ∧ (stripTensN n e).1 % 10 ≠ 0 := by
  induction n using Nat.strong_induction_on with
  | _ n ih =>
      intro e
      by_cases hd : n % 10 = 0
      · rw [stripTensN]
        simp only [hn, hd, ne_eq, not_false_eq_true, and_self, dite_true]
        have hdvd : 10 ∣ n := Nat.dvd_of_mod_eq_zero hd
        have hq : n / 10 ≠ 0 := by
          intro hc
          obtain ⟨q, hq⟩ := hdvd
          omega
        exact ih (n / 10) (Nat.div_lt_self (Nat.pos_of_ne_zero hn) (by omega))
          hq (e + 1)
      · rw [stripTensN_eq_self n e (Or.inr hd)]
        exact ⟨hn, hd⟩

theorem normNum_wf (neg : Bool) (n : Nat) (e : Int) :
    numWF (normNum neg n e).1 (normNum neg n e).2 = true := by
  unfold normNum numWF
  by_cases hn : n = 0
  · simp [hn]
  · simp only [hn, if_false, decide_eq_true_eq]
    obtain ⟨h1, h2⟩ := stripTensN_spec n hn e
    cases neg <;> simp_all

theorem numStopper_not_digit (rest : List Char) (h : numStopper rest) :
    ∀ c, rest.head? = some c → isDigitCh c = false := by
  intro c hc
  cases rest with
  | nil => simp at hc
  | cons a t =>
      simp only [List.head?_cons, Option.some.injEq] at hc
      subst hc
      rcases h with h | h | h <;> subst h <;> decide

theorem numStopper_head_ne (rest : List Char) (h : numStopper rest)
    (c : Char) (hc : rest.head? = some c) :
    c ≠ '.' ∧ c ≠ 'e' ∧ c ≠ 'E' := by
  cases rest with
  | nil => simp at hc
  | cons a t =>
      simp only [List.head?_cons, Option.some.injEq] at hc
      subst hc
      rcases h with h | h | h <;> subst h <;> exact ⟨by decide, by decide, by decide⟩

theorem parseFracSuffix_stopper (rest : List Char) (h : numStopper rest) :
    parseFracSuffix rest = some ([], rest) := by
  cases rest with
  | nil => rfl
  | cons a t =>
      have := (numStopper_head_ne (a :: t) h a rfl).1
      simp [parseFracSuffix, this]

theorem parseExpSuffix_stopper (rest : List Char) (h : numStopper rest) :
    parseExpSuffix rest = some (0, rest) := by
  cases rest with
  | nil => rfl
  | cons a t =>
      obtain ⟨_, h2, h3⟩ := numStopper_head_ne (a :: t) h a rfl
      simp [parseExpSuffix, h2, h3]

theorem replicate_zero_digits (k : Nat) :
    ∀ c ∈ List.replicate k '0', isDigitCh c = true := by
  intro c hc
  rw [List.eq_of_mem_replicate hc]
  decide

theorem isDigitCh_ne_dash (c : Char) (h : isDigitCh c = true) : ¬ c = '-' := by
  intro hc
  subst hc
  exact absurd h (by decide)

/-- A digit run with no leading zero (single `'0'` allowed) passes the
parser's leading-zero test. -/
theorem no_leading_zero (ds : List Char)
    (h : ds.length = 1 ∨ (∀ c, ds.head? = some c → c ≠ '0')) :
    ¬ (1 < ds.length ∧ ds.head? = some '0') := by
  rintro ⟨hlen, hhead⟩
  rcases h with h | h
  · omega
  · exact h '0' hhead rfl

theorem bodyNum_ne_nil (n : Nat) (e : Int) (hn : n ≠ 0) : bodyNum n e ≠ [] := by
  unfold bodyNum
  have hds := natDigitChars_ne_nil n hn
  by_cases he : 0 ≤ e
  · simp [he, hds]
  · by_cases hc : e.natAbs < (natDigitChars n).length <;> simp [he, hc]

theorem bodyNum_head_digit (n : Nat) (e : Int) (hn : n ≠ 0) :
    ∀ c, (bodyNum n e).head? = some c → isDigitCh c = true := by
  intro c hc
  have hds_digits := natDigitChars_all_digits n
  have hds_ne := natDigitChars_ne_nil n hn
  obtain ⟨d0, dt, hds_eq⟩ : ∃ d0 dt, natDigitChars n = d0 :: dt := by
    cases hh : natDigitChars n with
    | nil => exact absurd hh hds_ne
    | cons a t => exact ⟨a, t, rfl⟩
  have hd0 : isDigitCh d0 = true := hds_digits d0 (by rw [hds_eq]; simp)
  by_cases he : 0 ≤ e
  · have hb : bodyNum n e = natDigitChars n ++ List.replicate e.toNat '0' := by
      unfold bodyNum
      rw [if_pos he]
    rw [hb, hds_eq] at hc
    simp only [List.cons_append, List.head?_cons, Option.some.injEq] at hc
    exact hc ▸ hd0
  · by_cases hlt : e.natAbs < (natDigitChars n).length
    · have hb : bodyNum n e =
          (natDigitChars n).take ((natDigitChars n).length - e.natAbs) ++
            '.' :: (natDigitChars n).drop ((natDigitChars n).length - e.natAbs) := by
        unfold bodyNum
        rw [if_neg he, if_pos hlt]
      have hpos : 0 < (natDigitChars n).length - e.natAbs := by omega
      obtain ⟨k, hk⟩ : ∃ k, (natDigitChars n).length - e.natAbs = k + 1 :=
        ⟨_, (Nat.succ_pred_eq_of_pos hpos).symm⟩
      rw [hb, hk, hds_eq, List.take_succ_cons] at hc
      simp only [List.cons_append, List.head?_cons, Option.some.injEq] at hc
      exact hc ▸ hd0
    · have hb : bodyNum n e = '0' :: '.' ::
          List.replicate (e.natAbs - (natDigitChars n).length) '0' ++
            natDigitChars n := by
        unfold bodyNum
        rw [if_neg he, if_neg hlt]
      rw [hb] at hc
      simp only [List.cons_append, List.head?_cons, Option.some.injEq] at hc
      exact hc ▸ (by decide : isDigitCh '0' = true)

theorem head_cons_not_digit (a : Char) (h : isDigitCh a = false)
    (X : List Char) :
    ∀ c, ((a :: X).head? = some c) → isDigitCh c = false := by
  intro c hc
  simp only [List.head?_cons, Option.some.injEq] at hc
  exact hc ▸ h

theorem mem_singleton_digit (a : Char) (h : isDigitCh a = true) :
    ∀ c ∈ [a], isDigitCh c = true := by
  intro c hc
  rw [List.eq_of_mem_singleton hc]
  exact h

/-- Parsing the serialized body of a nonzero, ten-free mantissa. -/
theorem parseNumberCore_body (sgn : Bool) (n : Nat) (e : Int) (hn : n ≠ 0)
    (h10 : n % 10 ≠ 0) (rest : List Char) (hrest : numStopper rest) :
    parseNumberCore sgn (bodyNum n e ++ rest) =
      some (((if sgn then -(n : Int) else (n : Int)), e), rest) := by
  have hds_digits := natDigitChars_all_digits n
  have hds_ne := natDigitChars_ne_nil n hn
  have hds_head := natDigitChars_head_ne_zero n hn
  have hstop_digit := numStopper_not_digit rest hrest
  obtain ⟨d0, dt, hds_eq⟩ : ∃ d0 dt, natDigitChars n = d0 :: dt := by
    cases hh : natDigitChars n with
    | nil => exact absurd hh hds_ne
    | cons a t => exact ⟨a, t, rfl⟩
  have hd0_digit : isDigitCh d0 = true := hds_digits d0 (by rw [hds_eq]; simp)
  have hd0_ne : d0 ≠ '0' := hds_head d0 (by rw [hds_eq]; rfl)
  by_cases he : 0 ≤ e
  · -- integral rendering: digits then zeros
    have hdig : ∀ c ∈ natDigitChars n ++ List.replicate e.toNat '0',
        isDigitCh c = true := by
      intro c hc
      rcases List.mem_append.mp hc with hc | hc
      · exact hds_digits c hc
      · exact replicate_zero_digits _ c hc
    have htake : takeDigits ((natDigitChars n ++ List.replicate e.toNat '0')
        ++ rest) = (natDigitChars n ++ List.replicate e.toNat '0', rest) :=
      takeDigits_append _ rest hdig hstop_digit
    have hnolead : ¬ (1 < (natDigitChars n ++ List.replicate e.toNat '0').length ∧
        (natDigitChars n ++ List.replicate e.toNat '0').head? = some '0') := by
      apply no_leading_zero
      right
      intro c hc
      rw [hds_eq] at hc
      simp only [List.cons_append, List.head?_cons, Option.some.injEq] at hc
      exact hc ▸ hd0_ne
    have hshape : bodyNum n e ++ rest =
        d0 :: (dt ++ (List.replicate e.toNat '0' ++ rest)) := by
      unfold bodyNum
      rw [if_pos he, hds_eq]
      simp
    have hshape2 : d0 :: (dt ++ (List.replicate e.toNat '0' ++ rest)) =
        (natDigitChars n ++ List.replicate e.toNat '0') ++ rest := by
      rw [hds_eq]
      simp
    have hval : digitsVal ((natDigitChars n ++ List.replicate e.toNat '0') ++ [])
        = n * 10 ^ e.toNat := by
      rw [List.append_nil, digitsVal_append, digitsVal_natDigitChars,
        digitsVal_replicate_zero, List.length_replicate]
      ring
    have hnorm2 : normNum sgn (n * 10 ^ e.toNat)
        (0 - (([] : List Char).length : Int)) =
        ((if sgn then -(n : Int) else (n : Int)), e) := by
      unfold normNum
      have hnz : n * 10 ^ e.toNat ≠ 0 := by positivity
      rw [if_neg hnz, stripTensN_mul_pow n hn h10 e.toNat _]
      have he2 : (0 : Int) - (([] : List Char).length : Int) + (e.toNat : Int)
          = e := by
        simp only [List.length_nil, Nat.cast_zero]
        omega
      rw [he2]
    rw [hshape]
    simp only [parseNumberCore]
    rw [if_neg (by simp [hd0_digit]), hshape2, htake]
    rw [if_neg hnolead]
    simp only [parseFracSuffix_stopper rest hrest,
      parseExpSuffix_stopper rest hrest]
    rw [hval, hnorm2]
  · -- fractional rendering
    push_neg at he
    have hfpos : 0 < e.natAbs := by omega
    have hfe : (0 : Int) - (e.natAbs : Int) = e := by omega
    by_cases hlt : e.natAbs < (natDigitChars n).length
    · -- digits on both sides of the point
      have hpos : 0 < (natDigitChars n).length - e.natAbs := by omega
      obtain ⟨k, hk⟩ : ∃ k, (natDigitChars n).length - e.natAbs = k + 1 :=
        ⟨_, (Nat.succ_pred_eq_of_pos hpos).symm⟩
      have hint_digits : ∀ c ∈ (natDigitChars n).take
          ((natDigitChars n).length - e.natAbs), isDigitCh c = true :=
        fun c hc => hds_digits c (List.mem_of_mem_take hc)
      have hfrac_digits : ∀ c ∈ (natDigitChars n).drop
          ((natDigitChars n).length - e.natAbs), isDigitCh c = true :=
        fun c hc => hds_digits c (List.mem_of_mem_drop hc)
      have hdroplen : ((natDigitChars n).drop
          ((natDigitChars n).length - e.natAbs)).length = e.natAbs := by
        rw [List.length_drop]
        omega
      have hdrop_ne : (natDigitChars n).drop
          ((natDigitChars n).length - e.natAbs) ≠ [] := by
        intro hcontra
        have := congrArg List.length hcontra
        rw [hdroplen] at this
        simp at this
        omega
      have htake1 : takeDigits (((natDigitChars n).take
          ((natDigitChars n).length - e.natAbs)) ++
          ('.' :: ((natDigitChars n).drop ((natDigitChars n).length - e.natAbs)
            ++ rest))) =
          ((natDigitChars n).take ((natDigitChars n).length - e.natAbs),
           '.' :: ((natDigitChars n).drop ((natDigitChars n).length - e.natAbs)
            ++ rest)) :=
        takeDigits_append _ _ hint_digits
          (head_cons_not_digit '.' (by decide) _)
      have htake2 : takeDigits (((natDigitChars n).drop
          ((natDigitChars n).length - e.natAbs)) ++ rest) =
          ((natDigitChars n).drop ((natDigitChars n).length - e.natAbs), rest) :=
        takeDigits_append _ rest hfrac_digits hstop_digit
      have hfrac : parseFracSuffix ('.' :: ((natDigitChars n).drop
          ((natDigitChars n).length - e.natAbs) ++ rest)) =
          some ((natDigitChars n).drop ((natDigitChars n).length - e.natAbs),
            rest) := by
        simp only [parseFracSuffix, if_pos rfl, htake2]
        simp [hdrop_ne]
      have hnolead : ¬ (1 < ((natDigitChars n).take
          ((natDigitChars n).length - e.natAbs)).length ∧
          ((natDigitChars n).take
            ((natDigitChars n).length - e.natAbs)).head? = some '0') := by
        apply no_leading_zero
        right
        intro c hc
        rw [hk, hds_eq, List.take_succ_cons] at hc
        simp only [List.head?_cons, Option.some.injEq] at hc
        exact hc ▸ hd0_ne
      have hval : digitsVal (((natDigitChars n).take
          ((natDigitChars n).length - e.natAbs)) ++
          ((natDigitChars n).drop ((natDigitChars n).length - e.natAbs))) = n := by
        rw [List.take_append_drop, digitsVal_natDigitChars]
      have hnorm2 : normNum sgn n
          (0 - (((natDigitChars n).drop
            ((natDigitChars n).length - e.natAbs)).length : Int)) =
          ((if sgn then -(n : Int) else (n : Int)), e) := by
        unfold normNum
        rw [if_neg hn, stripTensN_eq_self n _ (Or.inr h10), hdroplen, hfe]
      have htk : (natDigitChars n).take ((natDigitChars n).length - e.natAbs) =
          d0 :: dt.take k := by
        rw [hk, hds_eq, List.take_succ_cons]
      have hshape : bodyNum n e ++ rest =
          d0 :: ((dt.take k) ++
            ('.' :: ((natDigitChars n).drop ((natDigitChars n).length - e.natAbs)
              ++ rest))) := by
        have hb : bodyNum n e =
            (natDigitChars n).take ((natDigitChars n).length - e.natAbs) ++
              '.' :: (natDigitChars n).drop ((natDigitChars n).length - e.natAbs) := by
          unfold bodyNum
          rw [if_neg (by omega), if_pos hlt]
        rw [hb, htk]
        simp
      have hshape2 : d0 :: ((dt.take k) ++
          ('.' :: ((natDigitChars n).drop ((natDigitChars n).length - e.natAbs)
            ++ rest))) =
          ((natDigitChars n).take ((natDigitChars n).length - e.natAbs)) ++
          ('.' :: ((natDigitChars n).drop ((natDigitChars n).length - e.natAbs)
            ++ rest)) := by
        rw [htk]
        simp
      rw [hshape]
      simp only [parseNumberCore]
      rw [if_neg (by simp [hd0_digit]), hshape2, htake1]
      rw [if_neg hnolead]
      simp only [hfrac, parseExpSuffix_stopper rest hrest]
      rw [hval, hnorm2]
    · -- leading `0.`, zeros, then all the digits
      push_neg at hlt
      have hrepl_digits : ∀ c ∈ (List.replicate (e.natAbs -
          (natDigitChars n).length) '0') ++ natDigitChars n,
          isDigitCh c = true := by
        intro c hc
        rcases List.mem_append.mp hc with hc | hc
        · exact replicate_zero_digits _ c hc
        · exact hds_digits c hc
      have htake2 : takeDigits (((List.replicate (e.natAbs -
          (natDigitChars n).length) '0') ++ natDigitChars n) ++ rest) =
          ((List.replicate (e.natAbs - (natDigitChars n).length) '0') ++
            natDigitChars n, rest) :=
        takeDigits_append _ rest hrepl_digits hstop_digit
      have hne2 : (List.replicate (e.natAbs - (natDigitChars n).length) '0') ++
          natDigitChars n ≠ [] := by
        simp [hds_ne]
      have hfrac : parseFracSuffix ('.' :: (((List.replicate (e.natAbs -
          (natDigitChars n).length) '0') ++ natDigitChars n) ++ rest)) =
          some ((List.replicate (e.natAbs - (natDigitChars n).length) '0') ++
            natDigitChars n, rest) := by
        simp only [parseFracSuffix, if_pos rfl, htake2]
        simp [hne2]
      have htake0 : takeDigits ('0' :: ('.' :: (((List.replicate (e.natAbs -
          (natDigitChars n).length) '0') ++ natDigitChars n) ++ rest))) =
          (['0'], '.' :: (((List.replicate (e.natAbs -
            (natDigitChars n).length) '0') ++ natDigitChars n) ++ rest)) := by
        have := takeDigits_append ['0'] ('.' :: (((List.replicate (e.natAbs -
          (natDigitChars n).length) '0') ++ natDigitChars n) ++ rest))
          (mem_singleton_digit '0' (by decide))
          (head_cons_not_digit '.' (by decide) _)
        simpa using this
      have hval : digitsVal (['0'] ++ ((List.replicate (e.natAbs -
          (natDigitChars n).length) '0') ++ natDigitChars n)) = n := by
        rw [digitsVal_append, digitsVal_append, digitsVal_replicate_zero,
          digitsVal_natDigitChars]
        have h0 : digitsVal ['0'] = 0 := by decide
        rw [h0]
        ring
      have hlen2 : (((List.replicate (e.natAbs - (natDigitChars n).length) '0')
          ++ natDigitChars n).length : Int) = e.natAbs := by
        rw [List.length_append, List.length_replicate]
        have := natDigitChars_length_pos n hn
        omega
      have hnorm2 : normNum sgn n
          (0 - ((((List.replicate (e.natAbs - (natDigitChars n).length) '0')
            ++ natDigitChars n)).length : Int)) =
          ((if sgn then -(n : Int) else (n : Int)), e) := by
        unfold normNum
        rw [if_neg hn, stripTensN_eq_self n _ (Or.inr h10), hlen2, hfe]
      have hshape : bodyNum n e ++ rest =
          '0' :: ('.' :: (((List.replicate (e.natAbs -
            (natDigitChars n).length) '0') ++ natDigitChars n) ++ rest)) := by
        unfold bodyNum
        rw [if_neg (by omega), if_neg (by omega)]
        simp
      rw [hshape]
      simp only [parseNumberCore]
      rw [if_neg (by decide), htake0]
      rw [if_neg (by simp)]
      simp only [hfrac, parseExpSuffix_stopper rest hrest]
      rw [hval, hnorm2]

/-- Parsing back a serialized normalized number. -/
theorem parseNumber_serializeNum (m e : Int) (hwf : numWF m e = true)
    (rest : List Char) (hrest : numStopper rest) :
    parseNumber (serializeNum m e ++ rest) = some ((m, e), rest) := by
  rw [numWF, decide_eq_true_eq] at hwf
  by_cases hm : m = 0
  · subst hm
    have he : e = 0 := hwf.1 rfl
    subst he
    show parseNumber ('0' :: rest) = _
    simp only [parseNumber]
    rw [if_neg (by decide : ¬ ('0' : Char) = '-')]
    have htake : takeDigits ('0' :: rest) = (['0'], rest) := by
      have := takeDigits_append ['0'] rest (mem_singleton_digit '0' (by decide))
        (numStopper_not_digit rest hrest)
      simpa using this
    simp only [parseNumberCore]
    rw [if_neg (by decide), htake]
    rw [if_neg (by simp)]
    simp only [parseFracSuffix_stopper rest hrest,
      parseExpSuffix_stopper rest hrest]
    rfl
  · have h10 := hwf.2 hm
    have hser : serializeNum m e =
        (if m < 0 then ['-'] else []) ++ bodyNum m.natAbs e := by
      unfold serializeNum
      rw [if_neg hm]
    have hnatabs : m.natAbs ≠ 0 := by
      intro hc
      exact hm (Int.natAbs_eq_zero.mp hc)
    rw [hser]
    by_cases hneg : m < 0
    · rw [if_pos hneg]
      show parseNumber ('-' :: (bodyNum m.natAbs e ++ rest)) = _
      simp only [parseNumber]
      rw [if_pos trivial, parseNumberCore_body true m.natAbs e hnatabs h10 rest hrest]
      have hval2 : (if true = true then -(m.natAbs : Int) else (m.natAbs : Int))
          = m := by
        rw [if_pos rfl]
        omega
      rw [hval2]
    · rw [if_neg hneg]
      simp only [List.nil_append]
      obtain ⟨c0, t0, hb⟩ : ∃ c0 t0, bodyNum m.natAbs e ++ rest = c0 :: t0 := by
        cases hh : bodyNum m.natAbs e with
        | nil => exact absurd hh (bodyNum_ne_nil _ e hnatabs)
        | cons a t => exact ⟨a, t ++ rest, by simp [hh]⟩
      have hc0_digit : isDigitCh c0 = true := by
        cases hh : bodyNum m.natAbs e with
        | nil => exact absurd hh (bodyNum_ne_nil _ e hnatabs)
        | cons a t =>
            rw [hh] at hb
            simp only [List.cons_append, List.cons.injEq] at hb
            exact hb.1 ▸ bodyNum_head_digit _ e hnatabs a (by rw [hh]; rfl)
      rw [hb]
      simp only [parseNumber]
      rw [if_neg (isDigitCh_ne_dash c0 hc0_digit), ← hb,
        parseNumberCore_body false m.natAbs e hnatabs h10 rest hrest]
      have hval2 : (if false = true then -(m.natAbs : Int) else (m.natAbs : Int))
          = m := by
        rw [if_neg (by decide)]
        omega
      rw [hval2]

theorem foldr_escape (l : List Char) (tail : List Char) :
    l.foldr (fun c acc => escapeChar c ++ acc) tail = escList l ++ tail := by
  induction l with
  | nil => rfl
  | cons c t ih =>
      show escapeChar c ++ _ = (escapeChar c ++ escList t) ++ tail
      rw [ih, List.append_assoc]

theorem serializeStr_eq (s : String) :
    serializeStr s = '"' :: (escList s.data ++ ['"']) := by
  unfold serializeStr
  rw [foldr_escape]

theorem escapeChar_ne_nil (c : Char) : escapeChar c ≠ [] := by
  unfold escapeChar
  repeat' split
  all_goals simp

theorem parseHex4_u00 (t : Nat) (ht : t < 256) (X : List Char) :
    parseHex4 ('0' :: '0' :: hexDigitCh (t / 16) :: hexDigitCh (t % 16) :: X) =
      some (t, X) := by
  have h1 : hexVal (hexDigitCh (t / 16)) = some (t / 16) :=
    hexVal_hexDigitCh _ (by omega)
  have h2 : hexVal (hexDigitCh (t % 16)) = some (t % 16) :=
    hexVal_hexDigitCh _ (by omega)
  have h0 : hexVal '0' = some 0 := by decide
  show (match hexVal '0', hexVal '0', hexVal (hexDigitCh (t / 16)),
      hexVal (hexDigitCh (t % 16)) with
    | some va, some vb, some vc, some vd =>
        some (((va * 16 + vb) * 16 + vc) * 16 + vd, X)
    | _, _, _, _ => none) = some (t, X)
  rw [h0, h1, h2]
  simp only [Option.some.injEq, Prod.mk.injEq]
  constructor
  · omega
  · exact trivial

theorem parseHex4_u202 (t : Nat) (h2028 : t = 0x2028 ∨ t = 0x2029)
    (X : List Char) :
    parseHex4 ('2' :: '0' :: '2' :: hexDigitCh (t % 16) :: X) = some (t, X) := by
  have h2 : hexVal (hexDigitCh (t % 16)) = some (t % 16) :=
    hexVal_hexDigitCh _ (by omega)
  show (match hexVal '2', hexVal '0', hexVal '2',
      hexVal (hexDigitCh (t % 16)) with
    | some va, some vb, some vc, some vd =>
        some (((va * 16 + vb) * 16 + vc) * 16 + vd, X)
    | _, _, _, _ => none) = some (t, X)
  rw [h2, (by decide : hexVal '2' = some 2), (by decide : hexVal '0' = some 0)]
  simp only [Option.some.injEq, Prod.mk.injEq]
  constructor
  · rcases h2028 with h | h <;> subst h <;> rfl
  · exact trivial

/-- One escaped character parses back to itself, costing one unit of fuel. -/
theorem parseStringBody_step (c : Char) (fuel : Nat) (X : List Char) :
    parseStringBody (fuel + 1) (escapeChar c ++ X) =
      consOut c (parseStringBody fuel X) := by
  by_cases h1 : c = '"'
  · subst h1
    show parseStringBody (fuel + 1) ('\\' :: '"' :: X) = _
    simp [parseStringBody]
  · by_cases h2 : c = '\\'
    · subst h2
      show parseStringBody (fuel + 1) ('\\' :: '\\' :: X) = _
      simp [parseStringBody]
    · by_cases h3 : c = '\n'
      · subst h3
        show parseStringBody (fuel + 1) ('\\' :: 'n' :: X) = _
        simp [parseStringBody]
      · by_cases h4 : c = '\r'
        · subst h4
          show parseStringBody (fuel + 1) ('\\' :: 'r' :: X) = _
          simp [parseStringBody]
        · by_cases h5 : c = '\t'
          · subst h5
            show parseStringBody (fuel + 1) ('\\' :: 't' :: X) = _
            simp [parseStringBody]
          · by_cases h6 : c.toNat < 32 ∨ c = '<' ∨ c = '>' ∨ c = '&'
            · have hesc : escapeChar c =
                  ['\\', 'u', '0', '0', hexDigitCh (c.toNat / 16),
                    hexDigitCh (c.toNat % 16)] := by
                unfold escapeChar
                rw [if_neg h1, if_neg h2, if_neg h3, if_neg h4, if_neg h5,
                  if_pos h6]
              have hbound : c.toNat < 256 := by
                rcases h6 with h | h | h | h
                · omega
                · subst h; decide
                · subst h; decide
                · subst h; decide
              rw [hesc]
              show parseStringBody (fuel + 1) ('\\' :: 'u' :: ('0' :: '0' ::
                hexDigitCh (c.toNat / 16) :: hexDigitCh (c.toNat % 16) :: X)) = _
              have hns : ¬ (0xD800 ≤ c.toNat ∧ c.toNat < 0xDC00) := by omega
              have hns2 : ¬ (0xDC00 ≤ c.toNat ∧ c.toNat < 0xE000) := by omega
              simp [parseStringBody, parseHex4_u00 c.toNat hbound X, hns, hns2,
                Char.ofNat_toNat]
            · by_cases h7 : c.toNat = 0x2028 ∨ c.toNat = 0x2029
              · have hesc : escapeChar c =
                    ['\\', 'u', '2', '0', '2', hexDigitCh (c.toNat % 16)] := by
                  unfold escapeChar
                  rw [if_neg h1, if_neg h2, if_neg h3, if_neg h4, if_neg h5,
                    if_neg h6, if_pos h7]
                rw [hesc]
                show parseStringBody (fuel + 1) ('\\' :: 'u' :: ('2' :: '0' ::
                  '2' :: hexDigitCh (c.toNat % 16) :: X)) = _
                have hns : ¬ (0xD800 ≤ c.toNat ∧ c.toNat < 0xDC00) := by
                  rcases h7 with h | h <;> omega
                have hns2 : ¬ (0xDC00 ≤ c.toNat ∧ c.toNat < 0xE000) := by
                  rcases h7 with h | h <;> omega
                simp [parseStringBody, parseHex4_u202 c.toNat h7 X, hns, hns2,
                  Char.ofNat_toNat]
              · have hesc : escapeChar c = [c] := by
                  unfold escapeChar
                  rw [if_neg h1, if_neg h2, if_neg h3, if_neg h4, if_neg h5,
                    if_neg h6, if_neg h7]
                rw [hesc]
                show parseStringBody (fuel + 1) (c :: X) = _
                simp only [parseStringBody]
                rw [if_neg h1, if_neg h2,
                  if_neg (by push_neg at h6; omega : ¬ c.toNat < 32)]

/-- The escaped body plus closing quote parses back to the original text. -/
theorem parseStringBody_escape (s : List Char) :
    ∀ (fuel : Nat) (rest : List Char), (escList s).length + 1 ≤ fuel →
      parseStringBody fuel (escList s ++ '"' :: rest) = some (s, rest) := by
  induction s with
  | nil =>
      intro fuel rest hfuel
      obtain ⟨f, rfl⟩ : ∃ f, fuel = f + 1 := ⟨fuel - 1, by omega⟩
      show parseStringBody (f + 1) ('"' :: rest) = some ([], rest)
      simp [parseStringBody]
  | cons c t ih =>
      intro fuel rest hfuel
      have hlen : (escList (c :: t)).length =
          (escapeChar c).length + (escList t).length := by
        show (escapeChar c ++ escList t).length = _
        rw [List.length_append]
      have hone : 1 ≤ (escapeChar c).length := by
        have := escapeChar_ne_nil c
        cases h : escapeChar c with
        | nil => exact absurd h this
        | cons a b => simp
      obtain ⟨f, rfl⟩ : ∃ f, fuel = f + 1 := ⟨fuel - 1, by omega⟩
      show parseStringBody (f + 1) ((escapeChar c ++ escList t) ++ '"' :: rest)
        = _
      rw [List.append_assoc, parseStringBody_step c f _]
      rw [ih f rest (by rw [hlen] at hfuel; omega)]
      rfl

/-! ### Round-trip of whole values -/
theorem skipWs_not_ws (c : Char) (t : List Char) (h : isWsCh c = false) :
    skipWs (c :: t) = c :: t := by
  simp [skipWs, h]

/-- A serialized number starts with a minus sign or a digit, which the
parser's dispatch never mistakes for another kind of value. -/
theorem dash_digit_facts (c : Char) (h : c = '-' ∨ isDigitCh c = true) :
    isWsCh c = false ∧ ¬ c = 'n' ∧ ¬ c = 't' ∧ ¬ c = 'f' ∧ ¬ c = '"' ∧
      ¬ c = '[' ∧ ¬ c = '\x7b' := by
  rcases h with rfl | h
  · exact ⟨by decide, by decide, by decide, by decide, by decide, by decide,
      by decide⟩
  · refine ⟨?_, ?_, ?_, ?_, ?_, ?_, ?_⟩
    · cases hw : isWsCh c
      · rfl
      · exfalso
        have hp : c = ' ' ∨ c = '\t' ∨ c = '\n' ∨ c = '\r' := by
          simpa [isWsCh] using hw
        rcases hp with rfl | rfl | rfl | rfl <;> exact absurd h (by decide)
    · intro hc; rw [hc] at h; exact absurd h (by decide)
    · intro hc; rw [hc] at h; exact absurd h (by decide)
    · intro hc; rw [hc] at h; exact absurd h (by decide)
    · intro hc; rw [hc] at h; exact absurd h (by decide)
    · intro hc; rw [hc] at h; exact absurd h (by decide)
    · intro hc; rw [hc] at h; exact absurd h (by decide)

theorem serializeNum_head (m e : Int) :
    ∃ c t, serializeNum m e = c :: t ∧ (c = '-' ∨ isDigitCh c = true) := by
  unfold serializeNum
  by_cases hm : m = 0
  · exact ⟨'0', [], by rw [if_pos hm], Or.inr (by decide)⟩
  · rw [if_neg hm]
    by_cases hneg : m < 0
    · rw [if_pos hneg]
      exact ⟨'-', bodyNum m.natAbs e, rfl, Or.inl rfl⟩
    · rw [if_neg hneg]
      have hna : m.natAbs ≠ 0 := by omega
      have hne := bodyNum_ne_nil m.natAbs e hna
      obtain ⟨d, t, hdt⟩ : ∃ d t, bodyNum m.natAbs e = d :: t := by
        cases hb : bodyNum m.natAbs e with
        | nil => exact absurd hb hne
        | cons a b => exact ⟨a, b, rfl⟩
      refine ⟨d, t, by rw [List.nil_append, hdt], Or.inr ?_⟩
      exact bodyNum_head_digit m.natAbs e hna d (by rw [hdt]; rfl)

/-- The first character of any serialized value: never whitespace and never
a closing bracket. -/
theorem serializeJVal_head (v : JVal) :
    ∃ c t, serializeJVal v = c :: t ∧ isWsCh c = false ∧ ¬ c = ']' ∧
      ¬ c = '\x7d' := by
  cases v with
  | null => exact ⟨'n', ['u', 'l', 'l'], rfl, by decide, by decide, by decide⟩
  | bool b =>
      cases b
      · exact ⟨'f', ['a', 'l', 's', 'e'], rfl, by decide, by decide, by decide⟩
      · exact ⟨'t', ['r', 'u', 'e'], rfl, by decide, by decide, by decide⟩
  | num m e =>
      obtain ⟨c, t, hct, hc⟩ := serializeNum_head m e
      have hws := (dash_digit_facts c hc).1
      refine ⟨c, t, hct, hws, ?_, ?_⟩
      · rcases hc with rfl | h
        · decide
        · intro hcontra; rw [hcontra] at h; exact absurd h (by decide)
      · rcases hc with rfl | h
        · decide
        · intro hcontra; rw [hcontra] at h; exact absurd h (by decide)
  | str s =>
      exact ⟨'"', s.data.foldr (fun c acc => escapeChar c ++ acc) ['"'], rfl,
        by decide, by decide, by decide⟩
  | arr xs =>
      exact ⟨'[', serializeElems xs ++ [']'], rfl, by decide, by decide,
        by decide⟩
  | obj fs =>
      exact ⟨'\x7b', serializeFields fs ++ ['\x7d'], rfl, by decide, by decide,
        by decide⟩

theorem serializeJVal_ne_nil (v : JVal) : serializeJVal v ≠ [] := by
  obtain ⟨c, t, hct, -, -, -⟩ := serializeJVal_head v
  rw [hct]
  simp

/-- A serialized nonempty element list starts like its first value. -/
theorem serializeElems_head (x : JVal) (xs : List JVal) :
    ∃ c t, serializeElems (x :: xs) = c :: t ∧ isWsCh c = false ∧
      ¬ c = ']' := by
  obtain ⟨c, t0, hct, hws, hbr, -⟩ := serializeJVal_head x
  cases xs with
  | nil => exact ⟨c, t0, by simp only [serializeElems]; exact hct, hws, hbr⟩
  | cons y ys =>
      refine ⟨c, t0 ++ ',' :: serializeElems (y :: ys), ?_, hws, hbr⟩
      simp only [serializeElems]
      rw [hct]
      rfl

/-- A serialized nonempty field list starts with the quote of its first key. -/
theorem serializeFields_head (kv : String × JVal) (fs : List (String × JVal)) :
    ∃ t, serializeFields (kv :: fs) = '"' :: t := by
  cases fs with
  | nil =>
      refine ⟨kv.1.data.foldr (fun c acc => escapeChar c ++ acc) ['"'] ++
        ':' :: serializeJVal kv.2, ?_⟩
      simp only [serializeFields, serializeStr, List.cons_append]
  | cons kv2 fs2 =>
      refine ⟨kv.1.data.foldr (fun c acc => escapeChar c ++ acc) ['"'] ++
        ':' :: (serializeJVal kv.2 ++ ',' :: serializeFields (kv2 :: fs2)),
        ?_⟩
      simp only [serializeFields, serializeStr, List.cons_append,
        List.append_assoc]

theorem parseValue_eq_dispatch (fuel : Nat) (c : Char) (t : List Char)
    (h : isWsCh c = false) :
    parseValue (fuel + 1) (c :: t) = valueDispatch fuel c t := by
  simp only [parseValue]
  rw [skipWs_not_ws c t h]
  rfl

theorem needV_pos (v : JVal) : 1 ≤ needV v := by
  cases v <;> simp only [needV] <;> omega

/-- The parser's default fuel budget covers serialized output. -/
theorem needV_le_length (v : JVal) : needV v ≤ (serializeJVal v).length := by
  induction v using jval_induction with
  | h1 => decide
  | h2 b => cases b <;> decide
  | h3 m e =>
      have hpos : 0 < (serializeJVal (JVal.num m e)).length :=
        List.length_pos.mpr (serializeJVal_ne_nil _)
      simp only [needV]
      omega
  | h4 s =>
      have hpos : 0 < (serializeJVal (JVal.str s)).length :=
        List.length_pos.mpr (serializeJVal_ne_nil _)
      simp only [needV]
      omega
  | h5 xs ih =>
      have key : ∀ ys : List JVal,
          (∀ y ∈ ys, needV y ≤ (serializeJVal y).length) →
          needE ys ≤ (serializeElems ys).length + 1 := by
        intro ys
        induction ys with
        | nil => intro _; simp [needE]
        | cons y ys ihy =>
            intro hmem
            have h1 : needV y ≤ (serializeJVal y).length := hmem y (by simp)
            have h2 : needE ys ≤ (serializeElems ys).length + 1 :=
              ihy (fun z hz => hmem z (by simp [hz]))
            cases ys with
            | nil =>
                simp only [needE, serializeElems, Nat.max_def]
                split <;> omega
            | cons z zs =>
                simp only [needE, serializeElems, List.length_append,
                  List.length_cons] at h2 ⊢
                omega
      simp only [needV, serializeJVal, List.length_cons, List.length_append]
      have := key xs ih
      omega
  | h6 fs ih =>
      have key : ∀ gs : List (String × JVal),
          (∀ kv ∈ gs, needV kv.2 ≤ (serializeJVal kv.2).length) →
          needF gs ≤ (serializeFields gs).length + 1 := by
        intro gs
        induction gs with
        | nil => intro _; simp [needF]
        | cons kv gs ihg =>
            intro hmem
            have h1 : needV kv.2 ≤ (serializeJVal kv.2).length :=
              hmem kv (by simp)
            have h2 : needF gs ≤ (serializeFields gs).length + 1 :=
              ihg (fun z hz => hmem z (by simp [hz]))
            cases gs with
            | nil =>
                simp only [needF, serializeFields, List.length_append,
                  List.length_cons, Nat.max_def]
                split <;> omega
            | cons kv2 gs2 =>
                simp only [needF, serializeFields, List.length_append,
                  List.length_cons] at h2 ⊢
                omega
      simp only [needV, serializeJVal, List.length_cons, List.length_append]
      have := key fs ih
      omega

/-- The serializer–parser round-trip, for values, array-element lists and
object-field lists simultaneously, by induction on the parser's fuel. -/
theorem parse_serialize_all (fuel : Nat) :
    (∀ v X, jvalWF v = true → numStopper X → needV v ≤ fuel →
      parseValue fuel (serializeJVal v ++ X) = some (v, X)) ∧
    (∀ xs X, jelemsWF xs = true → xs ≠ [] → needE xs ≤ fuel →
      parseElems fuel (serializeElems xs ++ ']' :: X) = some (xs, X)) ∧
    (∀ fs X, jfieldsWF fs = true → fs ≠ [] → needF fs ≤ fuel →
      parseFields fuel (serializeFields fs ++ '\x7d' :: X) = some (fs, X)) := by
  induction fuel with
  | zero =>
      refine ⟨?_, ?_, ?_⟩
      · intro v X _ _ hneed
        have := needV_pos v
        omega
      · intro xs X _ hne hneed
        cases xs with
        | nil => exact absurd rfl hne
        | cons x xs =>
            simp only [needE] at hneed
            omega
      · intro fs X _ hne hneed
        cases fs with
        | nil => exact absurd rfl hne
        | cons kv fs =>
            simp only [needF] at hneed
            omega
  | succ f ih =>
      obtain ⟨ihV, ihE, ihF⟩ := ih
      refine ⟨?_, ?_, ?_⟩
      · -- parseValue on a serialized value
        intro v X hwf hstop hneed
        cases v with
        | null => rfl
        | bool b => cases b <;> rfl
        | num m e =>
            have hwf' : numWF m e = true := by simpa only [jvalWF] using hwf
            obtain ⟨c, t, hct, hcc⟩ := serializeNum_head m e
            have hfacts := dash_digit_facts c hcc
            have hser : serializeJVal (JVal.num m e) = c :: t := by
              simp only [serializeJVal]
              exact hct
            rw [hser, List.cons_append,
              parseValue_eq_dispatch f c (t ++ X) hfacts.1]
            unfold valueDispatch
            rw [if_neg hfacts.2.1, if_neg hfacts.2.2.1, if_neg hfacts.2.2.2.1,
              if_neg hfacts.2.2.2.2.1, if_neg hfacts.2.2.2.2.2.1,
              if_neg hfacts.2.2.2.2.2.2, if_pos hcc]
            have hin : c :: (t ++ X) = serializeNum m e ++ X := by
              rw [hct]
              rfl
            rw [hin, parseNumber_serializeNum m e hwf' X hstop]
        | str s =>
            obtain ⟨l⟩ := s
            have hser : serializeJVal (JVal.str (String.mk l)) =
                '"' :: (escList l ++ ['"']) := by
              simp only [serializeJVal]
              exact serializeStr_eq (String.mk l)
            rw [hser, List.cons_append,
              parseValue_eq_dispatch f '"' _ (by decide)]
            unfold valueDispatch
            rw [if_neg (by decide), if_neg (by decide), if_neg (by decide),
              if_pos rfl]
            have hshape : escList l ++ ['"'] ++ X = escList l ++ '"' :: X := by
              rw [List.append_assoc]
              rfl
            rw [hshape, parseStringBody_escape l _ X
              (by simp only [List.length_append, List.length_cons]; omega)]
        | arr xs =>
            cases xs with
            | nil => rfl
            | cons x xs =>
                have hwf' : jelemsWF (x :: xs) = true := by
                  simpa only [jvalWF] using hwf
                have hneed' : needE (x :: xs) ≤ f := by
                  simp only [needV] at hneed
                  omega
                have hser : serializeJVal (JVal.arr (x :: xs)) ++ X =
                    '[' :: (serializeElems (x :: xs) ++ ']' :: X) := by
                  simp only [serializeJVal, List.cons_append,
                    List.append_assoc]
                  rfl
                rw [hser, parseValue_eq_dispatch f '[' _ (by decide)]
                unfold valueDispatch
                rw [if_neg (by decide), if_neg (by decide), if_neg (by decide),
                  if_neg (by decide), if_pos rfl]
                obtain ⟨c, t, hE, hws, hbr⟩ := serializeElems_head x xs
                have hE' : serializeElems (x :: xs) ++ ']' :: X =
                    c :: (t ++ ']' :: X) := by
                  rw [hE]
                  rfl
                rw [hE', skipWs_not_ws c _ hws]
                split
                · rename_i r heq
                  exfalso
                  injection heq with h1 h2
                  exact hbr h1
                · rw [← hE', ihE (x :: xs) X hwf' (by simp) hneed']
        | obj fs =>
            cases fs with
            | nil => rfl
            | cons kv fs =>
                have hwf' : jfieldsWF (kv :: fs) = true := by
                  simpa only [jvalWF] using hwf
                have hneed' : needF (kv :: fs) ≤ f := by
                  simp only [needV] at hneed
                  omega
                have hser : serializeJVal (JVal.obj (kv :: fs)) ++ X =
                    '\x7b' :: (serializeFields (kv :: fs) ++ '\x7d' :: X) := by
                  simp only [serializeJVal, List.cons_append,
                    List.append_assoc]
                  rfl
                rw [hser, parseValue_eq_dispatch f '\x7b' _ (by decide)]
                unfold valueDispatch
                rw [if_neg (by decide), if_neg (by decide), if_neg (by decide),
                  if_neg (by decide), if_neg (by decide), if_pos rfl]
                obtain ⟨t, hF⟩ := serializeFields_head kv fs
                have hF' : serializeFields (kv :: fs) ++ '\x7d' :: X =
                    '"' :: (t ++ '\x7d' :: X) := by
                  rw [hF]
                  rfl
                rw [hF', skipWs_not_ws '"' _ (by decide)]
                split
                · rename_i r heq
                  exfalso
                  injection heq with h1 h2
                  exact absurd h1 (by decide)
                · rw [← hF', ihF (kv :: fs) X hwf' (by simp) hneed']
      · -- parseElems on a serialized element list
        intro xs X hwf hne hneed
        cases xs with
        | nil => exact absurd rfl hne
        | cons x xs =>
            have hwf' : jvalWF x = true ∧ jelemsWF xs = true := by
              simpa only [jelemsWF, Bool.and_eq_true] using hwf
            have hmax : max (needV x) (needE xs) ≤ f := by
              simp only [needE] at hneed
              omega
            obtain ⟨hneedx, hneedxs⟩ := max_le_iff.mp hmax
            simp only [parseElems]
            cases xs with
            | nil =>
                have hs : serializeElems [x] ++ ']' :: X =
                    serializeJVal x ++ ']' :: X := by
                  simp only [serializeElems]
                rw [hs, ihV x (']' :: X) hwf'.1 (Or.inr (Or.inl rfl)) hneedx]
                rfl
            | cons y ys =>
                have hs : serializeElems (x :: y :: ys) ++ ']' :: X =
                    serializeJVal x ++
                      (',' :: (serializeElems (y :: ys) ++ ']' :: X)) := by
                  simp only [serializeElems, List.cons_append,
                    List.append_assoc]
                rw [hs, ihV x (',' :: (serializeElems (y :: ys) ++ ']' :: X))
                  hwf'.1 (Or.inl rfl) hneedx]
                show (match parseElems f (serializeElems (y :: ys) ++
                    ']' :: X) with
                  | some (vs, r) => some (x :: vs, r)
                  | none => none) = some (x :: y :: ys, X)
                rw [ihE (y :: ys) X hwf'.2 (by simp) hneedxs]
      · -- parseFields on a serialized field list
        intro fs X hwf hne hneed
        cases fs with
        | nil => exact absurd rfl hne
        | cons kv fs =>
            obtain ⟨k, v⟩ := kv
            obtain ⟨kl⟩ := k
            have hwf' : jvalWF v = true ∧ jfieldsWF fs = true := by
              simpa only [jfieldsWF, Bool.and_eq_true] using hwf
            have hmax : max (needV v) (needF fs) ≤ f := by
              simp only [needF] at hneed
              omega
            obtain ⟨hneedv, hneedfs⟩ := max_le_iff.mp hmax
            simp only [parseFields]
            cases fs with
            | nil =>
                have hshape : serializeFields [(String.mk kl, v)] ++
                    '\x7d' :: X =
                    '"' :: (escList kl ++ '"' :: ':' ::
                      (serializeJVal v ++ '\x7d' :: X)) := by
                  simp only [serializeFields, serializeStr_eq,
                    List.cons_append, List.append_assoc, List.nil_append]
                rw [hshape, skipWs_not_ws '"' _ (by decide)]
                show (match parseStringBody
                    (escList kl ++ '"' :: ':' ::
                      (serializeJVal v ++ '\x7d' :: X)).length
                    (escList kl ++ '"' :: ':' ::
                      (serializeJVal v ++ '\x7d' :: X)) with
                  | none => none
                  | some (k, rest2) =>
                      match skipWs rest2 with
                      | ':' :: rest3 =>
                          match parseValue f rest3 with
                          | none => none
                          | some (w, rest4) =>
                              match skipWs rest4 with
                              | ',' :: rest5 =>
                                  match parseFields f rest5 with
                                  | some (gs, r) =>
                                      some ((String.mk k, w) :: gs, r)
                                  | none => none
                              | '\x7d' :: rest5 =>
                                  some ([(String.mk k, w)], rest5)
                              | _ => none
                      | _ => none) = some ([(String.mk kl, v)], X)
                rw [parseStringBody_escape kl _ _
                  (by simp only [List.length_append, List.length_cons]; omega)]
                show (match parseValue f (serializeJVal v ++ '\x7d' :: X) with
                  | none => none
                  | some (w, rest4) =>
                      match skipWs rest4 with
                      | ',' :: rest5 =>
                          match parseFields f rest5 with
                          | some (gs, r) => some ((String.mk kl, w) :: gs, r)
                          | none => none
                      | '\x7d' :: rest5 => some ([(String.mk kl, w)], rest5)
                      | _ => none) = some ([(String.mk kl, v)], X)
                rw [ihV v ('\x7d' :: X) hwf'.1 (Or.inr (Or.inr rfl)) hneedv]
                rfl
            | cons g gs =>
                have hshape : serializeFields ((String.mk kl, v) :: g :: gs) ++
                    '\x7d' :: X =
                    '"' :: (escList kl ++ '"' :: ':' ::
                      (serializeJVal v ++ ',' ::
                        (serializeFields (g :: gs) ++ '\x7d' :: X))) := by
                  simp only [serializeFields, serializeStr_eq,
                    List.cons_append, List.append_assoc, List.nil_append]
                rw [hshape, skipWs_not_ws '"' _ (by decide)]
                show (match parseStringBody
                    (escList kl ++ '"' :: ':' ::
                      (serializeJVal v ++ ',' ::
                        (serializeFields (g :: gs) ++ '\x7d' :: X))).length
                    (escList kl ++ '"' :: ':' ::
                      (serializeJVal v ++ ',' ::
                        (serializeFields (g :: gs) ++ '\x7d' :: X))) with
                  | none => none
                  | some (k, rest2) =>
                      match skipWs rest2 with
                      | ':' :: rest3 =>
                          match parseValue f rest3 with
                          | none => none
                          | some (w, rest4) =>
                              match skipWs rest4 with
                              | ',' :: rest5 =>
                                  match parseFields f rest5 with
                                  | some (hs, r) =>
                                      some ((String.mk k, w) :: hs, r)
                                  | none => none
                              | '\x7d' :: rest5 =>
                                  some ([(String.mk k, w)], rest5)
                              | _ => none
                      | _ => none) =
                    some ((String.mk kl, v) :: g :: gs, X)
                rw [parseStringBody_escape kl _ _
                  (by simp only [List.length_append, List.length_cons]; omega)]
                show (match parseValue f (serializeJVal v ++ ',' ::
                    (serializeFields (g :: gs) ++ '\x7d' :: X)) with
                  | none => none
                  | some (w, rest4) =>
                      match skipWs rest4 with
                      | ',' :: rest5 =>
                          match parseFields f rest5 with
                          | some (hs, r) => some ((String.mk kl, w) :: hs, r)
                          | none => none
                      | '\x7d' :: rest5 => some ([(String.mk kl, w)], rest5)
                      | _ => none) =
                    some ((String.mk kl, v) :: g :: gs, X)
                rw [ihV v (',' :: (serializeFields (g :: gs) ++ '\x7d' :: X))
                  hwf'.1 (Or.inl rfl) hneedv]
                show (match parseFields f
                    (serializeFields (g :: gs) ++ '\x7d' :: X) with
                  | some (hs, r) => some ((String.mk kl, v) :: hs, r)
                  | none => none) = some ((String.mk kl, v) :: g :: gs, X)
                rw [ihF (g :: gs) X hwf'.2 (by simp) hneedfs]

theorem parseValue_succ_eq (f : Nat) (cs : List Char) :
    parseValue (f + 1) cs =
      (match skipWs cs with
       | [] => none
       | c :: rest => valueDispatch f c rest) := by
  simp only [parseValue]
  cases hsk : skipWs cs with
  | nil => rfl
  | cons c rest => rfl

theorem numWF_of_eq_normNum (neg : Bool) (n : Nat) (e0 : Int) (m e : Int)
    (h : normNum neg n e0 = (m, e)) : numWF m e = true := by
  have hwf := normNum_wf neg n e0
  rw [h] at hwf
  exact hwf

/-- The number parser only produces normalized exact decimals. -/
theorem parseNumberCore_wf (neg : Bool) (cs : List Char) (m e : Int)
    (r : List Char) (h : parseNumberCore neg cs = some ((m, e), r)) :
    numWF m e = true := by
  simp only [parseNumberCore] at h
  repeat' split at h
  all_goals
    first
      | exact Option.noConfusion h
      | (simp only [Option.some.injEq, Prod.mk.injEq] at h
         exact numWF_of_eq_normNum _ _ _ _ _ h.1)

theorem parseNumber_wf (cs : List Char) (m e : Int) (r : List Char)
    (h : parseNumber cs = some ((m, e), r)) : numWF m e = true := by
  unfold parseNumber at h
  repeat' split at h
  all_goals exact parseNumberCore_wf _ _ _ _ _ h

/-- Every value the parser produces is normalized (`jvalWF`). -/
theorem parsers_wf (fuel : Nat) :
    (∀ cs v r, parseValue fuel cs = some (v, r) → jvalWF v = true) ∧
    (∀ cs vs r, parseElems fuel cs = some (vs, r) → jelemsWF vs = true) ∧
    (∀ cs fs r, parseFields fuel cs = some (fs, r) → jfieldsWF fs = true) := by
  induction fuel with
  | zero =>
      refine ⟨?_, ?_, ?_⟩
      · intro cs v r h
        simp only [parseValue] at h
        exact Option.noConfusion h
      · intro cs vs r h
        simp only [parseElems] at h
        exact Option.noConfusion h
      · intro cs fs r h
        simp only [parseFields] at h
        exact Option.noConfusion h
  | succ f ih =>
      obtain ⟨ihV, ihE, ihF⟩ := ih
      refine ⟨?_, ?_, ?_⟩
      · intro cs v r h
        rw [parseValue_succ_eq] at h
        split at h
        · exact Option.noConfusion h
        · unfold valueDispatch at h
          repeat' split at h
          all_goals
            first
              | exact Option.noConfusion h
              | (simp only [Option.some.injEq, Prod.mk.injEq] at h
                 obtain ⟨hv, -⟩ := h
                 subst hv
                 simp only [jvalWF, jelemsWF, jfieldsWF, Bool.and_eq_true,
                   and_true]
                 all_goals
                   first
                     | rfl
                     | exact parseNumber_wf _ _ _ _ (by assumption)
                     | exact ihE _ _ _ (by assumption)
                     | exact ihF _ _ _ (by assumption))
      · intro cs vs r h
        simp only [parseElems] at h
        repeat' split at h
        all_goals
          first
            | exact Option.noConfusion h
            | (simp only [Option.some.injEq, Prod.mk.injEq] at h
               obtain ⟨hv, -⟩ := h
               subst hv
               simp only [jelemsWF, Bool.and_eq_true, and_true]
               all_goals
                 first
                   | exact ihV _ _ _ (by assumption)
                   | exact ⟨ihV _ _ _ (by assumption),
                       ihE _ _ _ (by assumption)⟩)
      · intro cs fs r h
        simp only [parseFields] at h
        repeat' split at h
        all_goals
          first
            | exact Option.noConfusion h
            | (simp only [Option.some.injEq, Prod.mk.injEq] at h
               obtain ⟨hv, -⟩ := h
               subst hv
               simp only [jfieldsWF, Bool.and_eq_true, and_true]
               all_goals
                 first
                   | exact ihV _ _ _ (by assumption)
                   | exact ⟨ihV _ _ _ (by assumption),
                       ihF _ _ _ (by assumption)⟩)

/-- Whatever `parseJson` returns is normalized. -/
theorem parseJson_wf (s : String) (j : JVal) (h : parseJson s = some j) :
    jvalWF j = true := by
  unfold parseJson at h
  split at h
  · rename_i v rest heq
    split at h
    · simp only [Option.some.injEq] at h
      subst h
      exact (parsers_wf _).1 _ _ _ heq
    · exact Option.noConfusion h
  · exact Option.noConfusion h

/-- Unmarshalling inverts marshalling for any normalized value. -/
theorem parseJson_serialize (v : JVal) (hwf : jvalWF v = true) :
    parseJson (String.mk (serializeJVal v)) = some v := by
  have h1 : parseValue ((serializeJVal v).length + 1) (serializeJVal v ++ []) =
      some (v, []) :=
    (parse_serialize_all _).1 v [] hwf True.intro
      (Nat.le_trans (needV_le_length v) (Nat.le_succ _))
  rw [List.append_nil] at h1
  unfold parseJson
  rw [show (String.mk (serializeJVal v)).length =
      (serializeJVal v).length from rfl,
    show (String.mk (serializeJVal v)).data = serializeJVal v from rfl, h1]
  rfl

/-! ### Lookup through mapping and sorting -/
theorem mfind_map_value {α β : Type} (f : α → β) (l : List (String × α))
    (k : String) :
    mfind (l.map (fun kv => (kv.1, f kv.2))) k = Option.map f (mfind l k) := by
  induction l with
  | nil => rfl
  | cons hd tl ih =>
      obtain ⟨a, b⟩ := hd
      by_cases hak : a = k <;> simp [mfind_cons, hak, ih]

theorem mkeys_map_value {α β : Type} (f : α → β) (l : List (String × α)) :
    mkeys (l.map (fun kv => (kv.1, f kv.2))) = mkeys l := by
  induction l with
  | nil => rfl
  | cons hd tl ih =>
      simp only [mkeys, List.map_cons] at ih ⊢
      rw [ih]

/-- With distinct keys, lookup is invariant under permutation. -/
theorem mfind_perm {α : Type} (l l2 : List (String × α)) (hp : l.Perm l2)
    (hnd : (mkeys l).Nodup) (k : String) : mfind l k = mfind l2 k := by
  have hkeys : (mkeys l).Perm (mkeys l2) := hp.map Prod.fst
  have hnd2 : (mkeys l2).Nodup := hkeys.nodup_iff.mp hnd
  cases hf : mfind l k with
  | none =>
      have hnotin : k ∉ mkeys l := (mfind_eq_none_iff _ _).mp hf
      have hnotin2 : k ∉ mkeys l2 := fun hmem => hnotin (hkeys.mem_iff.mpr hmem)
      exact ((mfind_eq_none_iff _ _).mpr hnotin2).symm
  | some v =>
      exact (mfind_eq_some_of_mem l2 hnd2 k v
        (hp.mem_iff.mp (mem_of_mfind_eq_some _ _ _ hf))).symm

theorem sortFields_perm (data : SMap) : (sortFields data).Perm data :=
  List.perm_insertionSort _ data

theorem mfind_sortFields (data : SMap) (hnd : (mkeys data).Nodup) (k : String) :
    mfind (sortFields data) k = mfind data k := by
  have hp := sortFields_perm data
  have hnd2 : (mkeys (sortFields data)).Nodup :=
    ((hp.map Prod.fst).nodup_iff).mpr hnd
  exact mfind_perm _ _ hp hnd2 k

theorem encodeEntry_wf (v : String) : jvalWF (encodeEntry v) = true := by
  unfold encodeEntry
  cases hp : parseJson v with
  | none => simp [jvalWF]
  | some j => exact parseJson_wf v j hp

theorem jfieldsWF_map_encode (l : SMap) :
    jfieldsWF (l.map (fun kv => (kv.1, encodeEntry kv.2))) = true := by
  induction l with
  | nil => simp [jfieldsWF]
  | cons hd tl ih =>
      simp only [List.map_cons, jfieldsWF, Bool.and_eq_true]
      exact ⟨encodeEntry_wf hd.2, ih⟩

/-- What one decoded entry of `decode(encode(x))` looks like. -/
theorem decodeEntry_encodeEntry (v : String) :
    decodeEntry (encodeEntry v) =
      (match parseJson v with
       | none => v
       | some (JVal.str t) => t
       | some j => String.mk (serializeJVal j)) := by
  unfold encodeEntry
  cases hp : parseJson v with
  | none => rfl
  | some j => cases j <;> rfl

/-! ## Claim C7 -/
/-- Claim C7 as stated is false for entries whose bytes are a valid JSON
*string*: `x = [("k", "\"hi\"")]` has valid-JSON bytes parsing to the JSON
string `hi`, whose canonical serialization is `"hi"` (quotes included) — but
decode(encode(x)) returns the bare text `hi`, the decoded string content,
which is neither the original bytes nor that canonical serialization. -/
theorem claim7_counterexample :
    parseJson "\"hi\"" = some (JVal.str "hi") ∧
    parseAwsSecretValue (prepareAwsSecretString [("k", "\"hi\"")] "json")
      "json" = Except.ok [("k", "hi")] ∧
    mfind [("k", "hi")] "k" ≠
      some (String.mk (serializeJVal (JVal.str "hi"))) :=
  ⟨rfl, rfl, by decide⟩

/-- Claim C7, amended: for every key-to-bytes map `x` with distinct keys,
`parseAwsSecretValue (prepareAwsSecretString x "json") "json"` succeeds and
yields a map with exactly `x`'s keys, where an entry whose original bytes are
not valid JSON comes back as the original text verbatim, an entry whose bytes
parse as a JSON *string* comes back as that string's decoded content, and
every other valid-JSON entry comes back as the canonical JSON serialization
of the parsed value. -/
theorem claim7_amended_codec_roundtrip (x : SMap) (hnd : (mkeys x).Nodup) :
    ∃ m, parseAwsSecretValue (prepareAwsSecretString x "json") "json" =
        Except.ok m ∧
      (mkeys m).Perm (mkeys x) ∧
      (∀ k v, mfind x k = some v →
        mfind m k = some (match parseJson v with
          | none => v
          | some (JVal.str t) => t
          | some j => String.mk (serializeJVal j))) := by
  refine ⟨((sortFields x).map (fun kv => (kv.1, encodeEntry kv.2))).map
      (fun kv => (kv.1, decodeEntry kv.2)), ?_, ?_, ?_⟩
  · have hprep : prepareAwsSecretString x "json" =
        String.mk (serializeJVal (JVal.obj ((sortFields x).map
          (fun kv => (kv.1, encodeEntry kv.2))))) := by
      unfold prepareAwsSecretString
      rw [if_pos rfl]
    rw [hprep]
    unfold parseAwsSecretValue
    rw [if_pos rfl]
    rw [parseJson_serialize (JVal.obj ((sortFields x).map
        (fun kv => (kv.1, encodeEntry kv.2))))
      (by simp only [jvalWF]; exact jfieldsWF_map_encode _)]
  · rw [mkeys_map_value, mkeys_map_value]
    exact (sortFields_perm x).map Prod.fst
  · intro k v hfind
    rw [mfind_map_value, mfind_map_value, mfind_sortFields x hnd, hfind]
    simp only [Option.map_some']
    rw [decodeEntry_encodeEntry]

theorem claim7_witness :
    (mkeys [("a", "x")]).Nodup ∧
    (∃ m, parseAwsSecretValue (prepareAwsSecretString [("a", "x")] "json")
        "json" = Except.ok m ∧
      (mkeys m).Perm (mkeys [("a", "x")]) ∧
      (∀ k v, mfind [("a", "x")] k = some v →
        mfind m k = some (match parseJson v with
          | none => v
          | some (JVal.str t) => t
          | some j => String.mk (serializeJVal j)))) :=
  ⟨by decide, claim7_amended_codec_roundtrip [("a", "x")] (by decide)⟩

end Yaso
